import Mathlib

/-!
# The progress indicator of `include/progress.h`

A shallow embedding of `smt::progress`: the per-thread slot array, the
`operator++` that advances one slot, the environment switch `verbose()`, and
one iteration of the render loop `run()`, including the single-precision
arithmetic that computes the bar position and the percentage.

Conventions.
* `unsigned long int` is 64 bits wide; its arithmetic wraps modulo `2 ^ 64`.
* A `std::string` is a `List Char`, one `Char` per `char` of the string.
* `float` is IEEE 754 binary32 with round-to-nearest, ties-to-even.
* `int` is 32 bits and `long` is 64 bits wide, both two's complement.
-/

namespace smt

set_option maxRecDepth 8000

/-! ## Machine integers -/

/-- Number of values of an `unsigned long int`. -/
def ULONG_RANGE : Nat := 2 ^ 64

/-! ## The slot array (`darray.h`) -/

/-- Modelled from the spec: `darray.h` is not among the sources. A
`smt::darray<unsigned long int, 1u>` is the SlotArray, "an ordered, fixed-length
collection of unsigned integer counters"; it is the list of its elements. -/
abbrev darray := List Nat

/-- Modelled from the spec: the constructor `darray{n}` followed by the fill
`i = 0ul`: "allocates `slotCount` counters, all initialized to zero". -/
def darray.zeros (n : Nat) : darray := List.replicate n 0

/-- Modelled from the spec: `++_i(k)`, "increments the slot at `workerIndex` by
one". The element is an `unsigned long int`, so the increment wraps; an index
outside the array has no defined result (`none`). -/
def darray.incr (a : darray) (k : Nat) : Option darray :=
  if h : k < a.length then some (a.set k ((a.get ⟨k, h⟩ + 1) % ULONG_RANGE)) else none

/-- The call `std::accumulate(std::begin(_i), std::end(_i), 0ul)`: a left fold
of `unsigned long int` additions starting from `0ul`. -/
def accumulate (a : darray) : Nat :=
  a.foldl (fun acc x => (acc + x) % ULONG_RANGE) 0

/-! ## The indicator object -/

/-- The member `std::thread _t`: either the empty thread `std::thread{}` or a
thread started on `progress::run`. -/
inductive thread
  | empty
  | started
deriving DecidableEq, Repr

/-- The call `std::thread::joinable()`. -/
def thread.joinable : thread → Bool
  | .empty => false
  | .started => true

/-- The data members of `class progress`. -/
structure progress where
  _delay : Int
  _n : Nat
  _name : List Char
  _i : darray
  _t : thread
deriving DecidableEq, Repr

/-- The member function `init_i()`. The argument is what the OpenMP runtime
reports through `omp_get_max_threads()`, or `none` when the program is built
without `_OPENMP`. -/
def progress.init_i (ompMaxThreads : Option Int) : darray :=
  match ompMaxThreads with
  | some t => darray.zeros (max t 1).toNat
  | none => darray.zeros 1

/-- The member function `operator++()`. The argument is the slot the call
resolves: `omp_get_thread_num()` with OpenMP, `0` without. -/
def progress.advance (p : progress) (w : Nat) : Option progress :=
  (p._i.incr w).map fun a => { p with _i := a }

/-- A sequence of `operator++` calls, the k-th by the worker `ws[k]`. -/
def progress.advanceAll (p : progress) (ws : List Nat) : Option progress :=
  ws.foldlM progress.advance p

/-! ## Single-precision arithmetic

The render loop computes in `float`. The values it can reach are NaN, positive
infinity and the finite non-negative values, which are kept as `m * 2 ^ e` with
`2 ^ 23 ≤ m < 2 ^ 24` (or `m = 0`, `e = 0` for zero). Sums and totals are below
`2 ^ 64`, so every finite value that arises is zero or lies between `2 ^ -64`
and `2 ^ 64`, inside the normal range of binary32; the exponent range itself is
therefore not represented. -/

/-- A `float` value of the render loop. -/
inductive F32
  | nan
  | inf
  | fin (m : Nat) (e : Int)
deriving DecidableEq, Repr

def bitLenAux : Nat → Nat → Nat
  | 0, _ => 0
  | fuel + 1, n => if n = 0 then 0 else bitLenAux fuel (n / 2) + 1

/-- Number of binary digits of `n`. -/
def bitLen (n : Nat) : Nat := bitLenAux n n

/-- The integer nearest to `P / Q`, a tie going to the even neighbour. -/
def roundHalfEven (P Q : Nat) : Nat :=
  let m := P / Q
  let r := P % Q
  if 2 * r < Q then m
  else if Q < 2 * r then m + 1
  else if m % 2 = 0 then m else m + 1

/-- The exponent `s` at which `p / q` has a 24-bit integer part:
`2 ^ 23 ≤ (p / q) / 2 ^ s < 2 ^ 24`, for positive `p` and `q`. -/
def expo (p q : Nat) : Int :=
  let s0 : Int := (bitLen p : Int) - (bitLen q : Int) - 24
  if p * 2 ^ (-s0).toNat < 2 ^ 24 * (q * 2 ^ s0.toNat) then s0 else s0 + 1

/-- The binary32 value nearest to the rational `p / q` (`q > 0`), ties to even:
the significand is `p / q` scaled to 24 bits and rounded to an integer. -/
def F32.ofRat (p q : Nat) : F32 :=
  if p = 0 then .fin 0 0 else
  let s := expo p q
  let m := roundHalfEven (p * 2 ^ (-s).toNat) (q * 2 ^ s.toNat)
  if m = 2 ^ 24 then .fin (2 ^ 23) (s + 1) else .fin m s

/-- Conversion of an unsigned integer to `float`. -/
def F32.ofNat (n : Nat) : F32 := F32.ofRat n 1

/-- The literal `1.0f`. -/
def F32.one : F32 := .fin (2 ^ 23) (-23)

/-- Division `a / b` of `float`: a finite quotient is rounded, `x / 0` is
infinity for `x > 0` and `0 / 0` is NaN. -/
def F32.div : F32 → F32 → F32
  | .fin m1 e1, .fin m2 e2 =>
    if m2 = 0 then (if m1 = 0 then .nan else .inf)
    else F32.ofRat (m1 * 2 ^ (e1 - e2).toNat) (m2 * 2 ^ (e2 - e1).toNat)
  | .fin _ _, .inf => .fin 0 0
  | .inf, .fin _ _ => .inf
  | _, _ => .nan

/-- Multiplication `a * b` of `float`. -/
def F32.mul : F32 → F32 → F32
  | .fin m1 e1, .fin m2 e2 =>
    F32.ofRat (m1 * m2 * 2 ^ (e1 + e2).toNat) (2 ^ (-(e1 + e2)).toNat)
  | .fin m _, .inf => if m = 0 then .nan else .inf
  | .inf, .fin m _ => if m = 0 then .nan else .inf
  | .inf, .inf => .inf
  | _, _ => .nan

/-- The comparison `a < b` of `float`; it is false when an operand is NaN. -/
def F32.lt : F32 → F32 → Bool
  | .fin m1 e1, .fin m2 e2 => decide (m1 * 2 ^ (e1 - e2).toNat < m2 * 2 ^ (e2 - e1).toNat)
  | .fin _ _, .inf => true
  | _, _ => false

/-- The call `std::min(a, b)`, which is `(b < a) ? b : a`. -/
def F32.min (a b : F32) : F32 := if F32.lt b a then b else a

/-- The call `std::floor(x)` on a `float`. -/
def F32.floor : F32 → F32
  | .fin m e => if 0 ≤ e then .fin m e else F32.ofNat (m / 2 ^ (-e).toNat)
  | x => x

/-- Conversion of a `float` to `unsigned int`: the value truncated. The
conversion is undefined (`none`) for NaN, infinity and values of `2 ^ 32` or
more. -/
def F32.toUInt : F32 → Option Nat
  | .fin m e =>
    let v := m * 2 ^ e.toNat / 2 ^ (-e).toNat
    if v < 2 ^ 32 then some v else none
  | _ => none

/-- The characters `operator<<` writes for a `float` in the default format
(six significant digits): an integral value below `10 ^ 6` is written as its
decimal digits. Other values (a fraction, exponent notation, the text of
infinity or NaN) are not covered (`none`). -/
def F32.print : F32 → Option (List Char)
  | .fin m e =>
    let v := m * 2 ^ e.toNat / 2 ^ (-e).toNat
    if m * 2 ^ e.toNat % 2 ^ (-e).toNat = 0 ∧ v < 10 ^ 6 then some (Nat.toDigits 10 v) else none
  | _ => none

/-- The rational value of a finite `float`; it is used to state properties of
the arithmetic and stands at `0` for infinity and NaN. -/
def F32.toRat : F32 → ℚ
  | .fin m e => (m : ℚ) * 2 ^ e
  | _ => 0

/-- The significand and exponent of a value as `F32.ofRat` produces it: zero is
`0 * 2 ^ 0`, every other value has a 24-bit significand. -/
def Canonical (m : Nat) (e : Int) : Prop :=
  (m = 0 ∧ e = 0) ∨ (2 ^ 23 ≤ m ∧ m < 2 ^ 24)

instance (m : Nat) (e : Int) : Decidable (Canonical m e) := by
  unfold Canonical
  infer_instance

/-! ## The render loop -/

/-- The field `std::setw(w)` produces: the text right-justified, filled with
spaces on the left. -/
def setw (w : Nat) (s : List Char) : List Char :=
  List.replicate (w - s.length) ' ' ++ s

/-- The value `prgs` of `run()`: `std::min(float(sum_i)/_n, 1.0f)`. -/
def progress.prgs (sum_i n : Nat) : F32 :=
  F32.min (F32.div (F32.ofNat sum_i) (F32.ofNat n)) F32.one

/-- The value `pos` of `run()`: `std::floor(50u*prgs)` converted to
`unsigned int`. -/
def progress.pos (sum_i n : Nat) : Option Nat :=
  F32.toUInt (F32.floor (F32.mul (F32.ofNat 50) (progress.prgs sum_i n)))

/-- The text of `std::floor(100.0f*prgs)` as line 120 prints it, before
`std::setw(3)` pads it. -/
def progress.percent (sum_i n : Nat) : Option (List Char) :=
  F32.print (F32.floor (F32.mul (F32.ofNat 100) (progress.prgs sum_i n)))

/-- What line 110 writes: the name cut to 18 characters, a space, the dots, and
the text `" ["`. -/
def progress.label (name : List Char) : List Char :=
  name.take 18 ++ [' '] ++ List.replicate (20 - min name.length 18) '.' ++ [' ', '[']

/-- What the `for` loop of lines 111-119 writes for a given `pos`. -/
def progress.bar (pos : Nat) : List Char :=
  (List.range 50).map fun ii => if ii < pos then '=' else if ii = pos then '>' else ' '

/-- The characters lines 110-120 write in one iteration, up to and including
the carriage return. The text is `none` when `pos` or the percentage has no
defined value. -/
def progress.render (sum_i n : Nat) (name : List Char) : Option (List Char) := do
  let pos ← progress.pos sum_i n
  let pct ← progress.percent sum_i n
  some (progress.label name ++ progress.bar pos ++ [']', ' '] ++ setw 3 pct ++ ['%', '\r'])

/-- One pass through the body of `while(true)` in `run()`. -/
structure Iteration where
  /-- The characters written to `std::cerr`; `none` when the line has no defined text. -/
  out : Option (List Char)
  /-- Whether the pass ends in `break`. -/
  brk : Bool
deriving DecidableEq, Repr

/-- One iteration of `run()` on the members of `p`: the line, then either the
flush and sleep of the `sum_i < _n` branch or the `std::endl` and `break`. -/
def progress.iteration (p : progress) : Iteration :=
  let sum_i := accumulate p._i
  let line := progress.render sum_i p._n p._name
  if sum_i < p._n then { out := line, brk := false }
  else { out := line.map (· ++ ['\n']), brk := true }

/-! ## The environment switch -/

/-- The process environment: the value of a variable, `none` when it is unset. -/
abbrev Env := List Char → Option (List Char)

/-- The helper `smt::getenv`: the value of the variable, the empty string when
`std::getenv` returns `nullptr`. -/
def getenv (env : Env) (var : List Char) : List Char :=
  match env var with
  | none => []
  | some tmp => tmp

/-- The white-space characters of `isspace` in the C locale. -/
def isspace (c : Char) : Bool :=
  c = ' ' || c = '\t' || c = '\n' || c = '\x0b' || c = '\x0c' || c = '\r'

/-- The value of a run of decimal digits. -/
def decimalValue (ds : List Char) : Nat :=
  ds.foldl (fun acc c => 10 * acc + (c.toNat - 48)) 0

/-- A value brought into the range of `long` (64 bits) the way `strtol` does on
overflow: it is replaced by `LONG_MIN` or `LONG_MAX`. -/
def clampLong (x : Int) : Int := max (-(2 ^ 63)) (min x (2 ^ 63 - 1))

/-- The library call `strtol(s, NULL, 10)`: leading white space is skipped, an
optional sign is read, then the longest run of decimal digits; what follows is
ignored, the value is `0` when there is no digit, and a value outside `long`
is clamped. -/
def strtol (s : List Char) : Int :=
  match s.dropWhile isspace with
  | '-' :: r => clampLong (-(decimalValue (r.takeWhile Char.isDigit) : Int))
  | '+' :: r => clampLong (decimalValue (r.takeWhile Char.isDigit))
  | r => clampLong (decimalValue (r.takeWhile Char.isDigit))

/-- Conversion of a `long` to `int` (32 bits, two's complement): the low 32
bits are kept. -/
def toInt32 (x : Int) : Int := (x + 2 ^ 31) % 2 ^ 32 - 2 ^ 31

/-- The library function `std::atoi`, which is `(int) strtol(s, NULL, 10)`: the
result is an `int`, so a numeral beyond the range of `int` does not keep its
value (`atoi("2147483648")` is `-2147483648`). -/
def atoi (s : List Char) : Int := toInt32 (strtol s)

/-- The member function `verbose()`. -/
def progress.verbose (env : Env) : Bool :=
  let val := getenv env "SMT_QUIET".toList
  if val = "true".toList ∨ val = "TRUE".toList ∨ atoi val > 0 then false else true

/-- The constructor `progress(n, name)`: the members in declaration order, the
thread started on `run` only when `verbose()` holds. -/
def progress.new (env : Env) (ompMaxThreads : Option Int) (n : Nat)
    (name : List Char) : progress :=
  { _delay := 100
    _n := n
    _name := name
    _i := progress.init_i ompMaxThreads
    _t := if progress.verbose env then thread.started else thread.empty }

/-- Whether the destructor `~progress()` calls `_t.join()`. -/
def progress.joins (p : progress) : Bool := p._t.joinable

/-! ## The indicator and its reporter thread -/

/-- An indicator together with what its reporter has done so far. -/
structure Process where
  /-- The indicator object. -/
  self : progress
  /-- The characters written to `std::cerr` so far. -/
  cerr : List Char
  /-- Whether `run()` has left its loop. -/
  exited : Bool
deriving DecidableEq, Repr

/-- The state right after construction. -/
def Process.start (p : progress) : Process :=
  { self := p, cerr := [], exited := false }

/-- What can happen to an indicator: a worker calls `operator++`, or the
reporter thread makes one pass through its loop. -/
inductive Event
  | advance (w : Nat)
  | poll
deriving DecidableEq, Repr

/-- One event. A pass of the loop takes place only in a thread started on
`run()` that has not left the loop; `none` is an event that cannot take place
or has no defined result. -/
def Process.step (st : Process) : Event → Option Process
  | .advance w => (st.self.advance w).map fun q => { st with self := q }
  | .poll =>
    if st.self._t.joinable = true ∧ st.exited = false then
      let it := st.self.iteration
      it.out.map fun text => { st with cerr := st.cerr ++ text, exited := it.brk }
    else none

/-- A sequence of events, in order. -/
def Process.exec (st : Process) (evs : List Event) : Option Process :=
  evs.foldlM Process.step st

/-- Whether the destructor has to wait: it joins a thread that is still in its
loop. -/
def Process.destructorBlocks (st : Process) : Bool :=
  st.self.joins && !st.exited

/-- Whether an event keeps every slot below `2 ^ 64`: an `operator++` call on a
slot that holds `2 ^ 64 - 1` would wrap it. -/
def Process.keepsBelow (st : Process) : Event → Bool
  | .advance w =>
    match st.self._i[w]? with
    | some x => decide (x + 1 < ULONG_RANGE)
    | none => true
  | .poll => true

/-- Whether no slot reaches `2 ^ 64` in the course of a sequence of events. -/
def Process.noWrap : Process → List Event → Bool
  | _, [] => true
  | st, ev :: evs =>
    st.keepsBelow ev &&
      match st.step ev with
      | some st' => Process.noWrap st' evs
      | none => true

/-! ## The quantities the specification names -/

/-- The bar position as the specification states it, `floor(50 * min(sum /
total, 1))` in exact arithmetic; for a positive total it is the integer quotient
of `50 * min(sum, total)` by `total`. -/
def exactPos (sum total : Nat) : Nat := 50 * min sum total / total

/-- The percentage as the specification states it, `floor(100 * min(sum /
total, 1))` in exact arithmetic. -/
def exactPercent (sum total : Nat) : Nat := 100 * min sum total / total

/-- A string that is, in its entirety, the decimal numeral of a positive
integer: one or more decimal digits and nothing else, with a positive value. -/
def wholePositiveNumeral (v : List Char) : Bool :=
  !v.isEmpty && v.all Char.isDigit &&
    decide (0 < v.foldl (fun acc c => 10 * acc + (c.toNat - 48)) 0)

/-- The words of the specification, `v` parses as the integer `z`, with the
value of the numeral taken as it stands, whatever its size: `v` is white space,
an optional sign, a non-empty run of decimal digits and a rest that does not go
on with a digit, and `z` is the signed value of the digits. -/
def ParsesAsInteger (v : List Char) (z : Int) : Prop :=
  ∃ ws sign ds rest, v = ws ++ sign ++ ds ++ rest ∧
    (∀ c ∈ ws, isspace c = true) ∧
    (sign = [] ∨ sign = ['+'] ∨ sign = ['-']) ∧
    ds ≠ [] ∧ (∀ c ∈ ds, c.isDigit = true) ∧
    (∀ c, rest.head? = some c → c.isDigit = false) ∧
    z = (if sign = ['-'] then -(decimalValue ds : Int) else (decimalValue ds : Int))

/-- What it is for `v` to parse as the `int` `k`: `v` is white space, an
optional sign, a non-empty run of decimal digits and a rest that does not go on
with a digit, and `k` is the signed value of the digits as the `int` the C
library makes of it (clamped to `long`, then cut to 32 bits; the value itself
when it fits an `int`). -/
def ParsesAsInt (v : List Char) (k : Int) : Prop :=
  ∃ ws sign ds rest, v = ws ++ sign ++ ds ++ rest ∧
    (∀ c ∈ ws, isspace c = true) ∧
    (sign = [] ∨ sign = ['+'] ∨ sign = ['-']) ∧
    ds ≠ [] ∧ (∀ c ∈ ds, c.isDigit = true) ∧
    (∀ c, rest.head? = some c → c.isDigit = false) ∧
    k = toInt32 (clampLong
      (if sign = ['-'] then -(decimalValue ds : Int) else (decimalValue ds : Int)))

/-- The environment in which `SMT_QUIET` has the value `v` (`none`: unset) and
no other variable is set. -/
def quietEnv (v : Option (List Char)) : Env :=
  fun var => if var = "SMT_QUIET".toList then v else none

/-! ## Theorems: the slot array -/

theorem accumulate_aux (a : darray) (c : Nat) (h : c + a.sum < ULONG_RANGE) :
    a.foldl (fun acc x => (acc + x) % ULONG_RANGE) c = c + a.sum := by
  induction a generalizing c with
  | nil => simp
  | cons x xs ih =>
    simp only [List.foldl_cons, List.sum_cons] at h ⊢
    have hx : (c + x) % ULONG_RANGE = c + x := Nat.mod_eq_of_lt (by omega)
    rw [hx, ih (c + x) (by omega)]
    omega

/-- Without wrap-around the accumulated value is the arithmetic sum. -/
theorem accumulate_eq_sum (a : darray) (h : a.sum < ULONG_RANGE) :
    accumulate a = a.sum := by
  unfold accumulate
  rw [accumulate_aux a 0 (by omega)]
  omega

theorem sum_set_succ (a : List Nat) (k : Nat) (h : k < a.length) :
    (a.set k (a.get ⟨k, h⟩ + 1)).sum = a.sum + 1 := by
  induction a generalizing k with
  | nil => simp at h
  | cons x xs ih =>
    cases k with
    | zero => simp; omega
    | succ k =>
      simp only [List.length_cons, Nat.succ_lt_succ_iff] at h
      simp only [List.set_cons_succ, List.sum_cons, List.get_cons_succ]
      rw [ih k h]
      omega

theorem get_le_sum (a : List Nat) (k : Nat) (h : k < a.length) :
    a.get ⟨k, h⟩ ≤ a.sum := by
  have hm : a.get ⟨k, h⟩ ∈ a := List.get_mem a k h
  exact List.single_le_sum (fun _ _ => Nat.zero_le _) _ hm

/-- One increment of a valid slot, away from wrap-around, raises the sum by one
and keeps the length. -/
theorem incr_spec (a : darray) (k : Nat) (h : k < a.length) (hs : a.sum + 1 < ULONG_RANGE) :
    ∃ b, a.incr k = some b ∧ b.sum = a.sum + 1 ∧ b.length = a.length := by
  have hle := get_le_sum a k h
  have hmod : (a.get ⟨k, h⟩ + 1) % ULONG_RANGE = a.get ⟨k, h⟩ + 1 :=
    Nat.mod_eq_of_lt (by omega)
  refine ⟨a.set k (a.get ⟨k, h⟩ + 1), ?_, sum_set_succ a k h, by simp⟩
  simp only [darray.incr, h, hmod, dite_true]

theorem advanceAll_spec (ws : List Nat) (p : progress)
    (hw : ∀ w ∈ ws, w < p._i.length) (hs : p._i.sum + ws.length < ULONG_RANGE) :
    ∃ q, p.advanceAll ws = some q ∧ q._i.sum = p._i.sum + ws.length ∧
      q._i.length = p._i.length ∧ q._n = p._n ∧ q._name = p._name ∧
      q._delay = p._delay ∧ q._t = p._t := by
  induction ws generalizing p with
  | nil => exact ⟨p, by simp [progress.advanceAll], by simp, rfl, rfl, rfl, rfl, rfl⟩
  | cons w ws ih =>
    simp only [List.length_cons] at hs
    obtain ⟨b, hb, hbs, hbl⟩ := incr_spec p._i w (hw w (by simp)) (by omega)
    have hstep : p.advance w = some { p with _i := b } := by simp [progress.advance, hb]
    obtain ⟨q, hq, hqs, hql, h1, h2, h3, h4⟩ := ih { p with _i := b }
      (fun v hv => by simpa [hbl] using hw v (by simp [hv])) (by simp only [hbs]; omega)
    simp only [hbs, hbl] at hqs hql
    refine ⟨q, ?_, ?_, hql, h1, h2, h3, h4⟩
    · simp only [progress.advanceAll, List.foldlM_cons, hstep, Option.some_bind]
      exact hq
    · simp only [hqs, List.length_cons]; omega

theorem init_i_length_pos (omp : Option Int) : 1 ≤ (progress.init_i omp).length := by
  cases omp with
  | none => simp [progress.init_i, darray.zeros]
  | some t =>
    simp only [progress.init_i, darray.zeros, List.length_replicate]
    omega

theorem init_i_sum (omp : Option Int) : (progress.init_i omp).sum = 0 := by
  cases omp <;> simp [progress.init_i, darray.zeros]

/-! ## Theorems: rounding -/

theorem bitLenAux_zero (fuel : Nat) : bitLenAux fuel 0 = 0 := by
  cases fuel <;> simp [bitLenAux]

theorem bitLenAux_spec (fuel : Nat) : ∀ n, n ≤ fuel → 0 < n →
    1 ≤ bitLenAux fuel n ∧ 2 ^ (bitLenAux fuel n - 1) ≤ n ∧ n < 2 ^ bitLenAux fuel n := by
  induction fuel with
  | zero => intro n h1 h2; omega
  | succ f ih =>
    intro n h1 h2
    have hn : n ≠ 0 := by omega
    simp only [bitLenAux, hn, if_false]
    by_cases h : n / 2 = 0
    · have h1n : n = 1 := by omega
      subst h1n
      simp [bitLenAux_zero]
    · obtain ⟨a1, a2, a3⟩ := ih (n / 2) (by omega) (by omega)
      refine ⟨by omega, ?_, ?_⟩
      · have e : bitLenAux f (n / 2) + 1 - 1 = (bitLenAux f (n / 2) - 1) + 1 := by omega
        rw [e, pow_succ]
        omega
      · rw [pow_succ]
        omega

/-- A positive `n` has `bitLen n` binary digits. -/
theorem bitLen_spec (n : Nat) (h : 0 < n) :
    1 ≤ bitLen n ∧ 2 ^ (bitLen n - 1) ≤ n ∧ n < 2 ^ bitLen n :=
  bitLenAux_spec n n (le_refl n) h

theorem roundHalfEven_cases (P Q : Nat) :
    (roundHalfEven P Q = P / Q ∧ 2 * (P % Q) ≤ Q ∧ (2 * (P % Q) = Q → (P / Q) % 2 = 0)) ∨
    (roundHalfEven P Q = P / Q + 1 ∧ Q ≤ 2 * (P % Q) ∧ (2 * (P % Q) = Q → (P / Q) % 2 = 1)) := by
  unfold roundHalfEven
  simp only
  split_ifs with h1 h2 h3
  · left; exact ⟨rfl, by omega, by omega⟩
  · right; exact ⟨rfl, by omega, by omega⟩
  · left; exact ⟨rfl, by omega, fun _ => h3⟩
  · right; exact ⟨rfl, by omega, fun _ => by omega⟩

theorem div_le_div_cross (P1 Q1 P2 Q2 : Nat) (h1 : 0 < Q1) (h2 : 0 < Q2)
    (h : P1 * Q2 ≤ P2 * Q1) : P1 / Q1 ≤ P2 / Q2 := by
  rw [Nat.le_div_iff_mul_le h2]
  have e1 : P1 / Q1 * Q1 ≤ P1 := Nat.div_mul_le_self P1 Q1
  have e2 : P1 / Q1 * Q2 * Q1 ≤ P2 * Q1 := by
    calc P1 / Q1 * Q2 * Q1 = P1 / Q1 * Q1 * Q2 := by ring
      _ ≤ P1 * Q2 := Nat.mul_le_mul_right _ e1
      _ ≤ P2 * Q1 := h
  exact Nat.le_of_mul_le_mul_right e2 h1

/-- Rounding to the nearest integer is monotone in the rational it rounds. -/
theorem roundHalfEven_mono (P1 Q1 P2 Q2 : Nat) (h1 : 0 < Q1) (h2 : 0 < Q2)
    (h : P1 * Q2 ≤ P2 * Q1) : roundHalfEven P1 Q1 ≤ roundHalfEven P2 Q2 := by
  have hm := div_le_div_cross P1 Q1 P2 Q2 h1 h2 h
  have d1 := Nat.div_add_mod P1 Q1
  have d2 := Nat.div_add_mod P2 Q2
  have l1 := Nat.mod_lt P1 h1
  have l2 := Nat.mod_lt P2 h2
  rcases roundHalfEven_cases P1 Q1 with ⟨a1, a2, a3⟩ | ⟨a1, a2, a3⟩ <;>
  rcases roundHalfEven_cases P2 Q2 with ⟨b1, b2, b3⟩ | ⟨b1, b2, b3⟩
  · omega
  · omega
  · rcases Nat.lt_or_ge (P1 / Q1) (P2 / Q2) with hlt | hge
    · omega
    · exfalso
      have hmm : P1 / Q1 = P2 / Q2 := by omega
      generalize P1 % Q1 = r1 at *
      generalize P2 % Q2 = r2 at *
      generalize P2 / Q2 = m at *
      generalize P1 / Q1 = m1 at *
      subst hmm
      have hr : r1 * Q2 ≤ r2 * Q1 := by
        have e1 : P1 * Q2 = Q1 * Q2 * m1 + r1 * Q2 := by rw [← d1]; ring
        have e2 : P2 * Q1 = Q1 * Q2 * m1 + r2 * Q1 := by rw [← d2]; ring
        omega
      have k1 : Q1 * Q2 ≤ 2 * r1 * Q2 := Nat.mul_le_mul_right _ a2
      have k2 : 2 * r2 * Q1 ≤ Q2 * Q1 := Nat.mul_le_mul_right _ b2
      have k3 : 2 * r1 * Q2 = Q1 * Q2 := by
        apply le_antisymm <;> linarith
      have k4 : 2 * r2 * Q1 = Q2 * Q1 := by
        apply le_antisymm <;> linarith
      have k5 : 2 * r1 = Q1 := Nat.eq_of_mul_eq_mul_right h2 k3
      have k6 : 2 * r2 = Q2 := Nat.eq_of_mul_eq_mul_right h1 k4
      have := a3 k5
      have := b3 k6
      omega
  · omega

theorem roundHalfEven_ge (P Q k : Nat) (hQ : 0 < Q) (h : k * Q ≤ P) :
    k ≤ roundHalfEven P Q := by
  have hk : k ≤ P / Q := (Nat.le_div_iff_mul_le hQ).2 h
  rcases roundHalfEven_cases P Q with ⟨a1, _, _⟩ | ⟨a1, _, _⟩ <;> omega

theorem roundHalfEven_le (P Q k : Nat) (hQ : 0 < Q) (h : P ≤ k * Q) :
    roundHalfEven P Q ≤ k := by
  have hm := roundHalfEven_mono P Q (k * Q) Q hQ hQ (by nlinarith)
  have hk : roundHalfEven (k * Q) Q = k := by
    unfold roundHalfEven
    simp [Nat.mul_div_cancel _ hQ, hQ]
  omega

theorem scaled_div (p q : Nat) (s : Int) :
    ((p * 2 ^ (-s).toNat : Nat) : ℚ) / ((q * 2 ^ s.toNat : Nat) : ℚ) = (p : ℚ) / q / 2 ^ s := by
  rcases le_total 0 s with h | h
  · obtain ⟨n, rfl⟩ := Int.eq_ofNat_of_zero_le h
    have e1 : (-(n : Int)).toNat = 0 := by omega
    have e2 : ((n : Int)).toNat = n := by omega
    rw [e1, e2]
    push_cast
    rw [zpow_natCast]
    field_simp
  · obtain ⟨n, hn⟩ : ∃ n : Nat, s = -(n : Int) := ⟨(-s).toNat, by omega⟩
    subst hn
    have e1 : (-(-(n : Int))).toNat = n := by omega
    have e2 : (-(n : Int)).toNat = 0 := by omega
    rw [e1, e2]
    push_cast
    rw [zpow_neg, zpow_natCast]
    field_simp

theorem scaled_den_pos (q : Nat) (s : Int) (hq : 0 < q) : 0 < q * 2 ^ s.toNat :=
  Nat.mul_pos hq (by positivity)

theorem two_zpow_pos (s : Int) : (0 : ℚ) < 2 ^ s := zpow_pos (by norm_num) s

/-- The exponent chosen by `expo` puts the scaled quotient in `[2 ^ 23, 2 ^ 24)`. -/
theorem expo_spec (p q : Nat) (hp : 0 < p) (hq : 0 < q) :
    (2 : ℚ) ^ 23 * 2 ^ expo p q ≤ (p : ℚ) / q ∧ (p : ℚ) / q < 2 ^ 24 * 2 ^ expo p q := by
  obtain ⟨a1, a2, a3⟩ := bitLen_spec p hp
  obtain ⟨b1, b2, b3⟩ := bitLen_spec q hq
  have hqQ : (0 : ℚ) < q := by exact_mod_cast hq
  have A2 : (2 : ℚ) ^ ((bitLen p : Int) - 1) ≤ p := by
    have : ((bitLen p : Int) - 1) = ((bitLen p - 1 : Nat) : Int) := by omega
    rw [this, zpow_natCast]; exact_mod_cast a2
  have A3 : (p : ℚ) < 2 ^ (bitLen p : Int) := by
    rw [zpow_natCast]; exact_mod_cast a3
  have B2 : (2 : ℚ) ^ ((bitLen q : Int) - 1) ≤ q := by
    have : ((bitLen q : Int) - 1) = ((bitLen q - 1 : Nat) : Int) := by omega
    rw [this, zpow_natCast]; exact_mod_cast b2
  have B3 : (q : ℚ) < 2 ^ (bitLen q : Int) := by
    rw [zpow_natCast]; exact_mod_cast b3
  set s0 : Int := (bitLen p : Int) - (bitLen q : Int) - 24 with hs0
  have two_ne : (2 : ℚ) ≠ 0 := by norm_num
  -- the quotient lies in `[2 ^ (s0 + 23), 2 ^ (s0 + 25))`
  have lo : (2 : ℚ) ^ 23 * 2 ^ s0 ≤ (p : ℚ) / q := by
    rw [le_div_iff₀ hqQ]
    have e : (2 : ℚ) ^ 23 * 2 ^ s0 * 2 ^ (bitLen q : Int) = 2 ^ ((bitLen p : Int) - 1) := by
      have : ((bitLen p : Int) - 1) = 23 + s0 + (bitLen q : Int) := by omega
      rw [this, zpow_add₀ two_ne, zpow_add₀ two_ne]; norm_num
    have := two_zpow_pos s0
    calc (2 : ℚ) ^ 23 * 2 ^ s0 * q ≤ 2 ^ 23 * 2 ^ s0 * 2 ^ (bitLen q : Int) := by
            apply mul_le_mul_of_nonneg_left B3.le; positivity
      _ = 2 ^ ((bitLen p : Int) - 1) := e
      _ ≤ p := A2
  have hi : (p : ℚ) / q < 2 ^ 25 * 2 ^ s0 := by
    rw [div_lt_iff₀ hqQ]
    have e : (2 : ℚ) ^ 25 * 2 ^ s0 * 2 ^ ((bitLen q : Int) - 1) = 2 ^ (bitLen p : Int) := by
      have : ((bitLen p : Int)) = 25 + s0 + ((bitLen q : Int) - 1) := by omega
      rw [this, zpow_add₀ two_ne, zpow_add₀ two_ne]; norm_num
    have := two_zpow_pos s0
    calc (p : ℚ) < 2 ^ (bitLen p : Int) := A3
      _ = (2 : ℚ) ^ 25 * 2 ^ s0 * 2 ^ ((bitLen q : Int) - 1) := e.symm
      _ ≤ 2 ^ 25 * 2 ^ s0 * q := by
            apply mul_le_mul_of_nonneg_left B2; positivity
  have hcond : (p * 2 ^ (-s0).toNat < 2 ^ 24 * (q * 2 ^ s0.toNat)) ↔
      (p : ℚ) / q < 2 ^ 24 * 2 ^ s0 := by
    have hQ : (0 : ℚ) < ((q * 2 ^ s0.toNat : Nat) : ℚ) := by
      exact_mod_cast scaled_den_pos q s0 hq
    have hd := scaled_div p q s0
    rw [← div_lt_iff₀ (two_zpow_pos s0), ← hd, div_lt_iff₀ hQ]
    norm_cast
  have hsucc : (2 : ℚ) ^ (s0 + 1) = 2 ^ s0 * 2 := by
    rw [zpow_add₀ two_ne]; norm_num
  unfold expo
  simp only
  rw [← hs0]
  by_cases hc : p * 2 ^ (-s0).toNat < 2 ^ 24 * (q * 2 ^ s0.toNat)
  · rw [if_pos hc]
    exact ⟨lo, hcond.1 hc⟩
  · rw [if_neg hc, hsucc]
    have hc2 : ¬ ((p : ℚ) / q < 2 ^ 24 * 2 ^ s0) := fun h => hc (hcond.2 h)
    constructor
    · have := not_lt.1 hc2; linarith
    · linarith

theorem scaled_bounds (p q : Nat) (hp : 0 < p) (hq : 0 < q) :
    2 ^ 23 * (q * 2 ^ (expo p q).toNat) ≤ p * 2 ^ (-(expo p q)).toNat ∧
    p * 2 ^ (-(expo p q)).toNat < 2 ^ 24 * (q * 2 ^ (expo p q).toNat) := by
  obtain ⟨lo, hi⟩ := expo_spec p q hp hq
  have hQ : (0 : ℚ) < ((q * 2 ^ (expo p q).toNat : Nat) : ℚ) := by
    exact_mod_cast scaled_den_pos q (expo p q) hq
  have hd := scaled_div p q (expo p q)
  have hz := two_zpow_pos (expo p q)
  constructor
  · have h1 : (2 : ℚ) ^ 23 ≤ (p : ℚ) / q / 2 ^ expo p q := by
      rw [le_div_iff₀ hz]; exact lo
    rw [← hd, le_div_iff₀ hQ] at h1
    exact_mod_cast h1
  · have h1 : (p : ℚ) / q / 2 ^ expo p q < 2 ^ 24 := by
      rw [div_lt_iff₀ hz]; exact hi
    rw [← hd, div_lt_iff₀ hQ] at h1
    exact_mod_cast h1

/-- The rounded significand of a positive quotient lies in `[2 ^ 23, 2 ^ 24]`. -/
theorem significand_bounds (p q : Nat) (hp : 0 < p) (hq : 0 < q) :
    2 ^ 23 ≤ roundHalfEven (p * 2 ^ (-(expo p q)).toNat) (q * 2 ^ (expo p q).toNat) ∧
    roundHalfEven (p * 2 ^ (-(expo p q)).toNat) (q * 2 ^ (expo p q).toNat) ≤ 2 ^ 24 := by
  obtain ⟨lo, hi⟩ := scaled_bounds p q hp hq
  have hQ := scaled_den_pos q (expo p q) hq
  exact ⟨roundHalfEven_ge _ _ _ hQ lo, roundHalfEven_le _ _ _ hQ hi.le⟩

/-- The result of rounding a positive quotient is a normal number whose value is
the rounded significand at the exponent of the quotient. -/
theorem ofRat_spec (p q : Nat) (hp : 0 < p) (hq : 0 < q) :
    ∃ m e, F32.ofRat p q = .fin m e ∧ 2 ^ 23 ≤ m ∧ m < 2 ^ 24 ∧
      (m : ℚ) * 2 ^ e =
        (roundHalfEven (p * 2 ^ (-(expo p q)).toNat) (q * 2 ^ (expo p q).toNat) : ℚ)
          * 2 ^ expo p q := by
  obtain ⟨lo, hi⟩ := significand_bounds p q hp hq
  have hp0 : p ≠ 0 := by omega
  unfold F32.ofRat
  simp only [hp0, if_false]
  by_cases h : roundHalfEven (p * 2 ^ (-(expo p q)).toNat) (q * 2 ^ (expo p q).toNat) = 2 ^ 24
  · rw [if_pos h]
    refine ⟨2 ^ 23, expo p q + 1, rfl, le_refl _, by norm_num, ?_⟩
    rw [h, zpow_add₀ (by norm_num : (2 : ℚ) ≠ 0)]
    push_cast
    ring
  · rw [if_neg h]
    exact ⟨_, _, rfl, lo, by omega, rfl⟩

theorem ofRat_zero (q : Nat) : F32.ofRat 0 q = .fin 0 0 := by
  simp [F32.ofRat]

theorem ofRat_toRat_nonneg (p q : Nat) (hq : 0 < q) : 0 ≤ (F32.ofRat p q).toRat := by
  rcases Nat.eq_zero_or_pos p with hp | hp
  · subst hp
    rw [ofRat_zero]
    simp [F32.toRat]
  · obtain ⟨m, e, r, _, _, _⟩ := ofRat_spec p q hp hq
    rw [r]
    simp only [F32.toRat]
    exact mul_nonneg (Nat.cast_nonneg m) (two_zpow_pos e).le

/-- Rounding is monotone: a smaller quotient never rounds to a larger value. -/
theorem ofRat_mono (p1 q1 p2 q2 : Nat) (hq1 : 0 < q1) (hq2 : 0 < q2)
    (h : p1 * q2 ≤ p2 * q1) : (F32.ofRat p1 q1).toRat ≤ (F32.ofRat p2 q2).toRat := by
  rcases Nat.eq_zero_or_pos p1 with hp1 | hp1
  · subst hp1
    rw [ofRat_zero]
    simpa [F32.toRat] using ofRat_toRat_nonneg p2 q2 hq2
  have hp2 : 0 < p2 := by
    rcases Nat.eq_zero_or_pos p2 with h0 | h0
    · subst h0
      have : 0 < p1 * q2 := Nat.mul_pos hp1 hq2
      omega
    · exact h0
  obtain ⟨m1, e1, r1, _, _, v1⟩ := ofRat_spec p1 q1 hp1 hq1
  obtain ⟨m2, e2, r2, _, _, v2⟩ := ofRat_spec p2 q2 hp2 hq2
  obtain ⟨lo1, hi1⟩ := expo_spec p1 q1 hp1 hq1
  obtain ⟨lo2, hi2⟩ := expo_spec p2 q2 hp2 hq2
  obtain ⟨sl1, sh1⟩ := significand_bounds p1 q1 hp1 hq1
  obtain ⟨sl2, sh2⟩ := significand_bounds p2 q2 hp2 hq2
  rw [r1, r2]
  simp only [F32.toRat]
  rw [v1, v2]
  have hx : (p1 : ℚ) / q1 ≤ (p2 : ℚ) / q2 := by
    have a1 : (0 : ℚ) < q1 := by exact_mod_cast hq1
    have a2 : (0 : ℚ) < q2 := by exact_mod_cast hq2
    rw [div_le_div_iff₀ a1 a2]
    exact_mod_cast h
  have two_gt : (1 : ℚ) < 2 := by norm_num
  rcases lt_trichotomy (expo p1 q1) (expo p2 q2) with hlt | heq | hgt
  · have hz : (2 : ℚ) ^ (expo p1 q1 + 1) ≤ 2 ^ expo p2 q2 :=
      zpow_le_zpow_right₀ two_gt.le (by omega)
    rw [zpow_add₀ (by norm_num : (2 : ℚ) ≠ 0)] at hz
    have c1 : ((roundHalfEven (p1 * 2 ^ (-(expo p1 q1)).toNat)
        (q1 * 2 ^ (expo p1 q1).toNat) : Nat) : ℚ) ≤ 2 ^ 24 := by exact_mod_cast sh1
    have c2 : (2 : ℚ) ^ 23 ≤ ((roundHalfEven (p2 * 2 ^ (-(expo p2 q2)).toNat)
        (q2 * 2 ^ (expo p2 q2).toNat) : Nat) : ℚ) := by exact_mod_cast sl2
    have z1 := two_zpow_pos (expo p1 q1)
    have z2 := two_zpow_pos (expo p2 q2)
    calc _ ≤ (2 : ℚ) ^ 24 * 2 ^ expo p1 q1 := mul_le_mul_of_nonneg_right c1 z1.le
      _ = 2 ^ 23 * (2 ^ expo p1 q1 * 2 ^ (1 : Int)) := by norm_num; ring
      _ ≤ 2 ^ 23 * 2 ^ expo p2 q2 := by
          apply mul_le_mul_of_nonneg_left hz; positivity
      _ ≤ _ := mul_le_mul_of_nonneg_right c2 z2.le
  · have hm := roundHalfEven_mono (p1 * 2 ^ (-(expo p1 q1)).toNat) (q1 * 2 ^ (expo p1 q1).toNat)
      (p2 * 2 ^ (-(expo p2 q2)).toNat) (q2 * 2 ^ (expo p2 q2).toNat)
      (scaled_den_pos q1 _ hq1) (scaled_den_pos q2 _ hq2)
      (by rw [heq]; nlinarith [Nat.zero_le (2 ^ (-(expo p2 q2)).toNat * 2 ^ (expo p2 q2).toNat)])
    rw [heq]
    apply mul_le_mul_of_nonneg_right _ (two_zpow_pos _).le
    rw [heq] at hm
    exact_mod_cast hm
  · exfalso
    have hz : (2 : ℚ) ^ (expo p2 q2 + 1) ≤ 2 ^ expo p1 q1 :=
      zpow_le_zpow_right₀ two_gt.le (by omega)
    rw [zpow_add₀ (by norm_num : (2 : ℚ) ≠ 0)] at hz
    have z2 := two_zpow_pos (expo p2 q2)
    have : (2 : ℚ) ^ 24 * 2 ^ expo p2 q2 ≤ 2 ^ 23 * 2 ^ expo p1 q1 := by
      calc (2 : ℚ) ^ 24 * 2 ^ expo p2 q2 = 2 ^ 23 * (2 ^ expo p2 q2 * 2 ^ (1 : Int)) := by
            norm_num; ring
        _ ≤ 2 ^ 23 * 2 ^ expo p1 q1 := by
            apply mul_le_mul_of_nonneg_left hz; positivity
    linarith

theorem ofRat_canonical (p q : Nat) (hq : 0 < q) :
    ∃ m e, F32.ofRat p q = .fin m e ∧ Canonical m e := by
  rcases Nat.eq_zero_or_pos p with hp | hp
  · subst hp
    exact ⟨0, 0, ofRat_zero q, Or.inl ⟨rfl, rfl⟩⟩
  · obtain ⟨m, e, r, h1, h2, _⟩ := ofRat_spec p q hp hq
    exact ⟨m, e, r, Or.inr ⟨h1, h2⟩⟩

theorem scaled_le (a b : Nat) (t : Int) :
    a * 2 ^ t.toNat ≤ b * 2 ^ (-t).toNat ↔ (a : ℚ) * 2 ^ t ≤ b := by
  rcases le_total 0 t with h | h
  · obtain ⟨n, rfl⟩ := Int.eq_ofNat_of_zero_le h
    have e1 : (-(n : Int)).toNat = 0 := by omega
    have e2 : ((n : Int)).toNat = n := by omega
    rw [e1, e2, zpow_natCast, pow_zero, mul_one]
    constructor
    · intro h; exact_mod_cast h
    · intro h; exact_mod_cast h
  · obtain ⟨n, hn⟩ : ∃ n : Nat, t = -(n : Int) := ⟨(-t).toNat, by omega⟩
    subst hn
    have e1 : (-(-(n : Int))).toNat = n := by omega
    have e2 : (-(n : Int)).toNat = 0 := by omega
    have hpos : (0 : ℚ) < 2 ^ n := by positivity
    rw [e1, e2, zpow_neg, zpow_natCast, ← div_eq_mul_inv, div_le_iff₀ hpos, pow_zero, mul_one]
    constructor
    · intro h; exact_mod_cast h
    · intro h; exact_mod_cast h

theorem scaled_lt (a b : Nat) (t : Int) :
    a * 2 ^ t.toNat < b * 2 ^ (-t).toNat ↔ (a : ℚ) * 2 ^ t < b := by
  rcases le_total 0 t with h | h
  · obtain ⟨n, rfl⟩ := Int.eq_ofNat_of_zero_le h
    have e1 : (-(n : Int)).toNat = 0 := by omega
    have e2 : ((n : Int)).toNat = n := by omega
    rw [e1, e2, zpow_natCast, pow_zero, mul_one]
    constructor
    · intro h; exact_mod_cast h
    · intro h; exact_mod_cast h
  · obtain ⟨n, hn⟩ : ∃ n : Nat, t = -(n : Int) := ⟨(-t).toNat, by omega⟩
    subst hn
    have e1 : (-(-(n : Int))).toNat = n := by omega
    have e2 : (-(n : Int)).toNat = 0 := by omega
    have hpos : (0 : ℚ) < 2 ^ n := by positivity
    rw [e1, e2, zpow_neg, zpow_natCast, ← div_eq_mul_inv, div_lt_iff₀ hpos, pow_zero, mul_one]
    constructor
    · intro h; exact_mod_cast h
    · intro h; exact_mod_cast h

/-- The comparison of two finite values compares their rational values. -/
theorem lt_fin_iff (m1 m2 : Nat) (e1 e2 : Int) :
    F32.lt (.fin m1 e1) (.fin m2 e2) = true ↔ (m1 : ℚ) * 2 ^ e1 < (m2 : ℚ) * 2 ^ e2 := by
  have hneg : e2 - e1 = -(e1 - e2) := by ring
  simp only [F32.lt, decide_eq_true_eq]
  rw [hneg, scaled_lt, zpow_sub₀ (by norm_num : (2 : ℚ) ≠ 0)]
  have z2 := two_zpow_pos e2
  rw [← mul_div_assoc, div_lt_iff₀ z2]

/-- A canonical value equal to one is the literal `1.0f`. -/
theorem canonical_eq_one (m : Nat) (e : Int) (hc : Canonical m e)
    (hv : (m : ℚ) * 2 ^ e = 1) : F32.fin m e = F32.one := by
  rcases hc with ⟨rfl, rfl⟩ | ⟨h1, h2⟩
  · norm_num at hv
  · have z := two_zpow_pos e
    have two_gt : (1 : ℚ) < 2 := by norm_num
    have two_ne : (2 : ℚ) ≠ 0 := by norm_num
    have c1 : (2 : ℚ) ^ 23 ≤ m := by exact_mod_cast h1
    have c2 : (m : ℚ) < 2 ^ 24 := by exact_mod_cast h2
    have l1 : (2 : ℚ) ^ ((23 : Int) + e) ≤ 2 ^ (0 : Int) := by
      rw [zpow_add₀ two_ne, zpow_zero, ← hv]
      exact mul_le_mul_of_nonneg_right (by exact_mod_cast h1) z.le
    have l2 : (2 : ℚ) ^ (0 : Int) < 2 ^ ((24 : Int) + e) := by
      rw [zpow_add₀ two_ne, zpow_zero, ← hv]
      exact mul_lt_mul_of_pos_right (by exact_mod_cast h2) z
    rw [zpow_le_zpow_iff_right₀ two_gt] at l1
    rw [zpow_lt_zpow_iff_right₀ two_gt] at l2
    have he : e = -23 := by omega
    subst he
    have hm : (m : ℚ) = 2 ^ 23 := by
      have : (2 : ℚ) ^ (-23 : Int) = (2 ^ 23)⁻¹ := by
        rw [zpow_neg]; norm_num
      rw [this] at hv
      field_simp at hv
      linarith
    have hm2 : m = 2 ^ 23 := by exact_mod_cast hm
    subst hm2
    rfl

/-! ## Theorems: the fraction, the bar position and the percentage -/

theorem ofNat_one : F32.ofNat 1 = F32.one := by decide

theorem ofNat_fifty : F32.ofNat 50 = .fin 13107200 (-18) := by decide

theorem ofNat_hundred : F32.ofNat 100 = .fin 13107200 (-17) := by decide

theorem one_toRat : ((2 ^ 23 : Nat) : ℚ) * 2 ^ (-23 : Int) = 1 := by
  rw [zpow_neg]; norm_num

theorem div_fin (m1 m2 : Nat) (e1 e2 : Int) (h : m2 ≠ 0) :
    F32.div (.fin m1 e1) (.fin m2 e2) =
      F32.ofRat (m1 * 2 ^ (e1 - e2).toNat) (m2 * 2 ^ (e2 - e1).toNat) := by
  simp [F32.div, h]

/-- For a positive total the fraction `prgs` is a finite value of at most one. -/
theorem prgs_canonical (sum_i n : Nat) (hn : 0 < n) :
    ∃ m e, progress.prgs sum_i n = .fin m e ∧ Canonical m e ∧ (m : ℚ) * 2 ^ e ≤ 1 := by
  obtain ⟨m2, e2, r2, h21, h22, _⟩ := ofRat_spec n 1 hn Nat.one_pos
  obtain ⟨m1, e1, r1, _⟩ := ofRat_canonical sum_i 1 Nat.one_pos
  have hm2 : m2 ≠ 0 := by
    have : 0 < 2 ^ 23 := by norm_num
    omega
  have hQ : 0 < m2 * 2 ^ (e2 - e1).toNat := Nat.mul_pos (by omega) (by positivity)
  obtain ⟨m, e, r, c⟩ := ofRat_canonical (m1 * 2 ^ (e1 - e2).toNat) _ hQ
  simp only [progress.prgs, F32.ofNat, r1, r2, div_fin _ _ _ _ hm2, r, F32.min, F32.one]
  by_cases hlt : F32.lt (.fin (2 ^ 23) (-23)) (.fin m e) = true
  · rw [if_pos hlt]
    exact ⟨_, _, rfl, Or.inr ⟨le_refl _, by norm_num⟩, one_toRat.le⟩
  · rw [if_neg hlt]
    refine ⟨_, _, rfl, c, ?_⟩
    rw [lt_fin_iff, one_toRat] at hlt
    exact not_lt.1 hlt

/-- Once the sum has reached a positive total the fraction `prgs` is exactly
`1.0f`. -/
theorem prgs_complete (sum_i n : Nat) (hn : 0 < n) (h : n ≤ sum_i) :
    progress.prgs sum_i n = F32.one := by
  have hs : 0 < sum_i := by omega
  obtain ⟨m2, e2, r2, h21, h22, _⟩ := ofRat_spec n 1 hn Nat.one_pos
  obtain ⟨m1, e1, r1, _, _, _⟩ := ofRat_spec sum_i 1 hs Nat.one_pos
  have hmono := ofRat_mono n 1 sum_i 1 Nat.one_pos Nat.one_pos (by omega)
  rw [r1, r2] at hmono
  simp only [F32.toRat] at hmono
  have hm2 : m2 ≠ 0 := by
    have : 0 < 2 ^ 23 := by norm_num
    omega
  have hQ : 0 < m2 * 2 ^ (e2 - e1).toNat := Nat.mul_pos (by omega) (by positivity)
  have hPQ : m2 * 2 ^ (e2 - e1).toNat ≤ m1 * 2 ^ (e1 - e2).toNat := by
    have hneg : e1 - e2 = -(e2 - e1) := by ring
    rw [hneg, scaled_le, zpow_sub₀ (by norm_num : (2 : ℚ) ≠ 0), ← mul_div_assoc,
      div_le_iff₀ (two_zpow_pos e1)]
    exact hmono
  have hge := ofRat_mono 1 1 (m1 * 2 ^ (e1 - e2).toNat) (m2 * 2 ^ (e2 - e1).toNat)
    Nat.one_pos hQ (by omega)
  obtain ⟨m, e, r, c⟩ := ofRat_canonical (m1 * 2 ^ (e1 - e2).toNat) _ hQ
  have h11 : F32.ofRat 1 1 = .fin (2 ^ 23) (-23) := by decide
  rw [h11, r] at hge
  simp only [F32.toRat] at hge
  rw [one_toRat] at hge
  simp only [progress.prgs, F32.ofNat, r1, r2, div_fin _ _ _ _ hm2, r, F32.min]
  by_cases hlt : F32.lt F32.one (.fin m e) = true
  · rw [if_pos hlt]
  · rw [if_neg hlt]
    simp only [F32.one] at hlt
    rw [lt_fin_iff, one_toRat] at hlt
    exact canonical_eq_one m e c (le_antisymm (not_lt.1 hlt) hge)

/-- The floor of `c * x`, for a constant `c ≤ 100` that `float` holds exactly and
a canonical `x ≤ 1`, is a whole number of at most `c`. -/
theorem floor_mul_le (c mc : Nat) (ec : Int) (hc : F32.ofNat c = .fin mc ec)
    (cval : (mc : ℚ) * 2 ^ ec = c) (hc100 : c ≤ 100) (m : Nat) (e : Int)
    (hv : (m : ℚ) * 2 ^ e ≤ 1) :
    ∃ k, k ≤ c ∧ F32.floor (F32.mul (F32.ofNat c) (.fin m e)) = F32.ofNat k := by
  have hQ : 0 < 2 ^ (-(ec + e)).toNat := by positivity
  have hle : mc * m * 2 ^ (ec + e).toNat * 1 ≤ c * 2 ^ (-(ec + e)).toNat := by
    rw [mul_one, scaled_le, zpow_add₀ (by norm_num : (2 : ℚ) ≠ 0)]
    push_cast
    have z := two_zpow_pos e
    calc (mc : ℚ) * m * (2 ^ ec * 2 ^ e) = ((mc : ℚ) * 2 ^ ec) * ((m : ℚ) * 2 ^ e) := by ring
      _ ≤ (c : ℚ) * 1 := by
          rw [cval]
          exact mul_le_mul_of_nonneg_left hv (Nat.cast_nonneg c)
      _ = c := mul_one _
  have hmono := ofRat_mono _ _ c 1 hQ Nat.one_pos hle
  obtain ⟨m', e', r, can⟩ := ofRat_canonical (mc * m * 2 ^ (ec + e).toNat) _ hQ
  have hcr : F32.ofRat c 1 = .fin mc ec := hc
  rw [r, hcr] at hmono
  simp only [F32.toRat] at hmono
  rw [cval] at hmono
  simp only [hc, F32.mul, r, F32.floor]
  by_cases he : 0 ≤ e'
  · rw [if_pos he]
    rcases can with ⟨rfl, rfl⟩ | ⟨h1, h2⟩
    · exact ⟨0, Nat.zero_le _, by decide⟩
    · exfalso
      have a1 : (2 : ℚ) ^ 23 ≤ m' := by exact_mod_cast h1
      have a2 : (1 : ℚ) ≤ 2 ^ e' := by
        have := zpow_le_zpow_right₀ (by norm_num : (1 : ℚ) ≤ 2) he
        simpa using this
      have a3 : (c : ℚ) ≤ 100 := by exact_mod_cast hc100
      have a4 : (2 : ℚ) ^ 23 * 1 ≤ (m' : ℚ) * 2 ^ e' :=
        mul_le_mul a1 a2 (by norm_num) (Nat.cast_nonneg _)
      norm_num at a4
      linarith
  · rw [if_neg he]
    refine ⟨m' / 2 ^ (-e').toNat, ?_, rfl⟩
    have hs : m' * 2 ^ e'.toNat ≤ c * 2 ^ (-e').toNat := (scaled_le m' c e').2 hmono
    have e0 : e'.toNat = 0 := by omega
    rw [e0, pow_zero, mul_one] at hs
    apply Nat.div_le_of_le_mul
    rw [mul_comm]
    exact hs

/-- Whole numbers up to one hundred convert and print exactly. -/
theorem small_whole (k : Nat) (h : k ≤ 100) :
    F32.toUInt (F32.ofNat k) = some k ∧ F32.print (F32.ofNat k) = some (Nat.toDigits 10 k) := by
  revert k
  decide

theorem fifty_toRat : ((13107200 : Nat) : ℚ) * 2 ^ (-18 : Int) = ((50 : Nat) : ℚ) := by
  rw [zpow_neg]; norm_num

theorem hundred_toRat : ((13107200 : Nat) : ℚ) * 2 ^ (-17 : Int) = ((100 : Nat) : ℚ) := by
  rw [zpow_neg]; norm_num

/-- For a positive total the bar position is defined and at most 50. -/
theorem pos_defined (sum_i n : Nat) (hn : 0 < n) :
    ∃ k, k ≤ 50 ∧ progress.pos sum_i n = some k := by
  obtain ⟨m, e, r, _, hv⟩ := prgs_canonical sum_i n hn
  obtain ⟨k, hk, hf⟩ := floor_mul_le 50 _ _ ofNat_fifty fifty_toRat (by norm_num) m e hv
  refine ⟨k, hk, ?_⟩
  simp only [progress.pos, r, hf]
  exact (small_whole k (by omega)).1

/-- For a positive total the percentage is defined: the digits of a whole number
of at most 100, the floor of the single-precision product `100.0f*prgs`. -/
theorem percent_defined (sum_i n : Nat) (hn : 0 < n) :
    ∃ k, k ≤ 100 ∧
      F32.floor (F32.mul (F32.ofNat 100) (progress.prgs sum_i n)) = F32.ofNat k ∧
      progress.percent sum_i n = some (Nat.toDigits 10 k) := by
  obtain ⟨m, e, r, _, hv⟩ := prgs_canonical sum_i n hn
  obtain ⟨k, hk, hf⟩ := floor_mul_le 100 _ _ ofNat_hundred hundred_toRat (by norm_num) m e hv
  refine ⟨k, hk, by rw [r, hf], ?_⟩
  simp only [progress.percent, r, hf]
  exact (small_whole k hk).2

theorem render_eq (sum_i n : Nat) (name : List Char) (k : Nat) (pct : List Char)
    (h1 : progress.pos sum_i n = some k) (h2 : progress.percent sum_i n = some pct) :
    progress.render sum_i n name =
      some (progress.label name ++ progress.bar k ++ [']', ' '] ++ setw 3 pct ++ ['%', '\r']) := by
  simp [progress.render, h1, h2]

theorem bar_length (pos : Nat) : (progress.bar pos).length = 50 := by
  simp [progress.bar]

theorem bar_get (pos ii : Nat) (h : ii < 50) :
    (progress.bar pos)[ii]? = some (if ii < pos then '=' else if ii = pos then '>' else ' ') := by
  simp [progress.bar, List.getElem?_map, List.getElem?_range h]

theorem digits_length (k : Nat) (h : k ≤ 100) :
    1 ≤ (Nat.toDigits 10 k).length ∧ (Nat.toDigits 10 k).length ≤ 3 := by
  revert k
  decide

theorem setw_length (w : Nat) (s : List Char) (h : s.length ≤ w) : (setw w s).length = w := by
  simp only [setw, List.length_append, List.length_replicate]
  omega

/-! ## Theorems: the reporter thread -/

theorem advance_frame (p q : progress) (w : Nat) (h : p.advance w = some q) :
    q._t = p._t ∧ q._n = p._n ∧ q._name = p._name ∧ q._delay = p._delay := by
  simp only [progress.advance, Option.map_eq_some'] at h
  obtain ⟨a, _, rfl⟩ := h
  exact ⟨rfl, rfl, rfl, rfl⟩

/-- Without a reporter thread an event writes nothing: only `operator++` can
take place, and it leaves the stream and the thread member alone. -/
theorem step_without_thread (st st' : Process) (ev : Event)
    (ht : st.self._t = thread.empty) (h : st.step ev = some st') :
    st'.self._t = thread.empty ∧ st'.cerr = st.cerr ∧ st'.exited = st.exited := by
  cases ev with
  | advance w =>
    simp only [Process.step, Option.map_eq_some'] at h
    obtain ⟨q, hq, rfl⟩ := h
    exact ⟨(advance_frame _ _ _ hq).1.trans ht, rfl, rfl⟩
  | poll =>
    simp [Process.step, ht, thread.joinable] at h

theorem exec_without_thread (evs : List Event) (st st' : Process)
    (ht : st.self._t = thread.empty) (h : st.exec evs = some st') :
    st'.self._t = thread.empty ∧ st'.cerr = st.cerr ∧ st'.exited = st.exited := by
  induction evs generalizing st with
  | nil =>
    simp only [Process.exec, List.foldlM_nil, Option.pure_def, Option.some.injEq] at h
    subst h
    exact ⟨ht, rfl, rfl⟩
  | cons ev evs ih =>
    simp only [Process.exec, List.foldlM_cons, Option.bind_eq_bind, Option.bind_eq_some] at h
    obtain ⟨mid, hmid, hrest⟩ := h
    obtain ⟨a1, a2, a3⟩ := step_without_thread st mid ev ht hmid
    obtain ⟨b1, b2, b3⟩ := ih mid a1 hrest
    exact ⟨b1, b2.trans a2, b3.trans a3⟩

/-- A run of `operator++` calls in the process is the run of the calls on the
object. -/
theorem exec_advances (ws : List Nat) (st : Process) :
    st.exec (ws.map Event.advance) = (st.self.advanceAll ws).map fun q => { st with self := q } := by
  induction ws generalizing st with
  | nil => simp [Process.exec, progress.advanceAll]
  | cons w ws ih =>
    simp only [Process.exec, progress.advanceAll, List.map_cons, List.foldlM_cons,
      Process.step] at ih ⊢
    cases h : st.self.advance w with
    | none => simp
    | some q =>
      simp only [Option.map_some', Option.bind_eq_bind, Option.some_bind]
      exact ih { st with self := q }

/-! ## Theorems: the quantities of the specification -/

theorem min_div_one (sum total : Nat) (ht : 0 < total) :
    min ((sum : ℚ) / total) 1 = ((min sum total : Nat) : ℚ) / total := by
  have hq : (0 : ℚ) < total := by exact_mod_cast ht
  rcases le_total sum total with h | h
  · have h1 : (sum : ℚ) / total ≤ 1 := by
      rw [div_le_one hq]; exact_mod_cast h
    rw [min_eq_left h1, Nat.min_eq_left h]
  · have h1 : 1 ≤ (sum : ℚ) / total := by
      rw [le_div_iff₀ hq, one_mul]; exact_mod_cast h
    rw [min_eq_right h1, Nat.min_eq_right h, div_self hq.ne']

/-- The integer formula `exactPos` is `floor(50 * min(sum / total, 1))` over the
rationals. -/
theorem exactPos_eq_floor (sum total : Nat) (ht : 0 < total) :
    exactPos sum total = ⌊(50 : ℚ) * min ((sum : ℚ) / total) 1⌋₊ := by
  rw [min_div_one sum total ht, ← mul_div_assoc]
  have : (50 : ℚ) * ((min sum total : Nat) : ℚ) = ((50 * min sum total : Nat) : ℚ) := by
    push_cast; ring
  rw [this, Nat.floor_div_eq_div]
  rfl

/-- The integer formula `exactPercent` is `floor(100 * min(sum / total, 1))` over
the rationals. -/
theorem exactPercent_eq_floor (sum total : Nat) (ht : 0 < total) :
    exactPercent sum total = ⌊(100 : ℚ) * min ((sum : ℚ) / total) 1⌋₊ := by
  rw [min_div_one sum total ht, ← mul_div_assoc]
  have : (100 : ℚ) * ((min sum total : Nat) : ℚ) = ((100 * min sum total : Nat) : ℚ) := by
    push_cast; ring
  rw [this, Nat.floor_div_eq_div]
  rfl

/-! ## The claims -/

/-- Claim C1: from a freshly constructed indicator (all slots zero), after any
sequence of `k < 2 ^ 64` calls of `operator++`, each by a valid worker index,
every call succeeds and the sum the render loop accumulates equals `k`, however
the calls are spread over the slots and whatever the target total is. -/
theorem C1_sum_equals_number_of_calls (env : Env) (omp : Option Int) (n : Nat)
    (name : List Char) (ws : List Nat)
    (hw : ∀ w ∈ ws, w < (progress.new env omp n name)._i.length)
    (hk : ws.length < ULONG_RANGE) :
    ∃ q, (progress.new env omp n name).advanceAll ws = some q ∧
      accumulate q._i = ws.length ∧ q._n = n := by
  have hsum : (progress.new env omp n name)._i.sum = 0 := init_i_sum omp
  obtain ⟨q, hq, hqs, _, hqn, _⟩ := advanceAll_spec ws (progress.new env omp n name) hw
    (by omega)
  refine ⟨q, hq, ?_, hqn⟩
  rw [accumulate_eq_sum q._i (by omega)]
  omega

/-- Witness of C1: four calls by two workers on an indicator with target 3. -/
theorem C1_witness :
    ∃ q, (progress.new (quietEnv none) (some 2) 3 "Progress".toList).advanceAll [0, 1, 1, 0]
        = some q ∧ accumulate q._i = [0, 1, 1, 0].length ∧ q._n = 3 :=
  C1_sum_equals_number_of_calls (quietEnv none) (some 2) 3 "Progress".toList [0, 1, 1, 0]
    (by decide) (by decide)

/-- Claim C2: for every total `n > 0` and every sum of at least `n`, the line
shows the completed state: `pos` is 50, so all 50 bar positions are `=`, and
the percentage field is `100`. -/
theorem C2_sum_reached_total_shows_complete (sum_i n : Nat) (name : List Char)
    (hn : 0 < n) (h : n ≤ sum_i) (_hs : sum_i < ULONG_RANGE) :
    progress.pos sum_i n = some 50 ∧
    progress.percent sum_i n = some ['1', '0', '0'] ∧
    progress.bar 50 = List.replicate 50 '=' ∧
    progress.render sum_i n name =
      some (progress.label name ++ List.replicate 50 '=' ++ [']', ' '] ++ ['1', '0', '0']
        ++ ['%', '\r']) := by
  have hp : progress.pos sum_i n = some 50 := by
    simp only [progress.pos, prgs_complete sum_i n hn h]
    decide
  have hq : progress.percent sum_i n = some ['1', '0', '0'] := by
    simp only [progress.percent, prgs_complete sum_i n hn h]
    decide
  have hb : progress.bar 50 = List.replicate 50 '=' := by decide
  refine ⟨hp, hq, hb, ?_⟩
  rw [render_eq sum_i n name 50 _ hp hq, hb]
  rfl

/-- Witness of C2: total 200 and sum 200. -/
theorem C2_witness :
    progress.pos 200 200 = some 50 ∧
    progress.percent 200 200 = some ['1', '0', '0'] ∧
    progress.bar 50 = List.replicate 50 '=' ∧
    progress.render 200 200 "Loading".toList =
      some (progress.label "Loading".toList ++ List.replicate 50 '=' ++ [']', ' ']
        ++ ['1', '0', '0'] ++ ['%', '\r']) :=
  C2_sum_reached_total_shows_complete 200 200 "Loading".toList (by decide) (by decide) (by decide)

/-- Claim C3, as the code behaves: with total 0 and no call of `operator++` the
first iteration ends the loop, but the fraction is `0.0f/0.0f`, a NaN that
`std::min` lets through; the bar position and the percentage have no defined
value, so the line does not report 100%. With a positive sum the same total
does render the completed line. -/
theorem C3_zero_total_zero_sum_is_nan :
    progress.prgs 0 0 = F32.nan ∧
    progress.pos 0 0 = none ∧
    progress.percent 0 0 = none ∧
    (progress.new (quietEnv none) none 0 "Progress".toList).iteration
      = { out := none, brk := true } ∧
    progress.render 1 0 "Progress".toList =
      some (progress.label "Progress".toList ++ List.replicate 50 '=' ++ [']', ' ']
        ++ ['1', '0', '0'] ++ ['%', '\r']) := by
  decide

/-- Claim C5 fails as stated, at its own example: for total 100 and sum 53 the
exact percentage is 53, but `float(53)/100` rounds below `0.53` and
`100.0f*prgs` rounds below 53, so the line shows ` 52%`. -/
theorem C5_counterexample :
    exactPercent 53 100 = 53 ∧
    progress.percent 53 100 = some ['5', '2'] ∧
    progress.render 53 100 "Progress".toList =
      some "Progress ............ [==========================>                       ]  52%\r".toList := by
  decide

/-- Claim C5, amended: for every total `n > 0` and every sum, the percentage
printed after `"] "` is the decimal numeral of a whole number `k ≤ 100`, the
floor of the single-precision product `100.0f*prgs` that `run()` computes,
right-justified with leading spaces in a field of 3 characters and followed
directly by `%`. -/
theorem C5_percent_printed_from_float (sum_i n : Nat) (name : List Char)
    (hn : 0 < n) (_hs : sum_i < ULONG_RANGE) (_hn : n < ULONG_RANGE) :
    ∃ pos k, k ≤ 100 ∧
      F32.floor (F32.mul (F32.ofNat 100) (progress.prgs sum_i n)) = F32.ofNat k ∧
      progress.render sum_i n name =
        some (progress.label name ++ progress.bar pos ++ [']', ' ']
          ++ setw 3 (Nat.toDigits 10 k) ++ ['%', '\r']) ∧
      setw 3 (Nat.toDigits 10 k) =
        List.replicate (3 - (Nat.toDigits 10 k).length) ' ' ++ Nat.toDigits 10 k ∧
      (setw 3 (Nat.toDigits 10 k)).length = 3 := by
  obtain ⟨pos, _, hp⟩ := pos_defined sum_i n hn
  obtain ⟨k, hk, hf, hq⟩ := percent_defined sum_i n hn
  exact ⟨pos, k, hk, hf, render_eq sum_i n name pos _ hp hq, rfl,
    setw_length 3 _ (digits_length k hk).2⟩

/-- Witness of C5: total 4 and sum 1 print ` 25%`. -/
theorem C5_witness :
    (∃ pos k, k ≤ 100 ∧
      F32.floor (F32.mul (F32.ofNat 100) (progress.prgs 1 4)) = F32.ofNat k ∧
      progress.render 1 4 "Progress".toList =
        some (progress.label "Progress".toList ++ progress.bar pos ++ [']', ' ']
          ++ setw 3 (Nat.toDigits 10 k) ++ ['%', '\r']) ∧
      setw 3 (Nat.toDigits 10 k) =
        List.replicate (3 - (Nat.toDigits 10 k).length) ' ' ++ Nat.toDigits 10 k ∧
      (setw 3 (Nat.toDigits 10 k)).length = 3) ∧
    progress.percent 1 4 = some ['2', '5'] ∧
    setw 3 ['2', '5'] ++ ['%'] = [' ', '2', '5', '%'] :=
  ⟨C5_percent_printed_from_float 1 4 "Progress".toList (by decide) (by decide) (by decide),
    by decide, by decide⟩

/-- Claim C6 fails as stated: for the name `Loading` the text before the
bracket is the 7 letters, one space and 13 dots, 21 characters and not 20, and
a space stands between the dots and `[`, which is at index 22. -/
theorem C6_counterexample :
    progress.label "Loading".toList = "Loading ............. [".toList ∧
    progress.label "Loading".toList ≠ "Loading ............[".toList ∧
    (progress.label "Loading".toList).indexOf '[' = 22 := by
  decide

/-- Claim C6, amended: for every name the text `run()` writes before the bar is
the name cut to 18 characters, one space and `20 - min(length, 18)` dots, which
together are exactly 21 characters wide, then one space and the bracket `[`;
every rendered line starts with this text. -/
theorem C6_label_is_21_wide_then_space_bracket (name : List Char) :
    progress.label name =
      (name.take 18 ++ [' '] ++ List.replicate (20 - min name.length 18) '.') ++ [' ', '['] ∧
    (name.take 18 ++ [' '] ++ List.replicate (20 - min name.length 18) '.').length = 21 ∧
    (progress.label name).length = 23 ∧
    (∀ sum_i n, 0 < n →
      ∃ rest, progress.render sum_i n name = some (progress.label name ++ rest)) ∧
    ∀ sum_i n line, progress.render sum_i n name = some line →
      ∃ rest, line = progress.label name ++ rest := by
  have hlen : (name.take 18 ++ [' '] ++ List.replicate (20 - min name.length 18) '.').length
      = 21 := by
    simp only [List.length_append, List.length_take, List.length_replicate,
      List.length_singleton]
    omega
  refine ⟨rfl, hlen, ?_, ?_, ?_⟩
  · simp only [progress.label, List.length_append, hlen, List.length_cons, List.length_nil]
  · intro sum_i n hn
    obtain ⟨k, _, hp⟩ := pos_defined sum_i n hn
    obtain ⟨j, _, _, hq⟩ := percent_defined sum_i n hn
    refine ⟨progress.bar k ++ [']', ' '] ++ setw 3 (Nat.toDigits 10 j) ++ ['%', '\r'], ?_⟩
    rw [render_eq sum_i n name k _ hp hq]
    simp only [List.append_assoc]
  · intro sum_i n line h
    simp only [progress.render, Option.bind_eq_bind, Option.bind_eq_some] at h
    obtain ⟨pos, _, pct, _, hl⟩ := h
    simp only [Option.some.injEq] at hl
    exact ⟨progress.bar pos ++ [']', ' '] ++ setw 3 pct ++ ['%', '\r'], by
      rw [← hl]; simp only [List.append_assoc]⟩

/-- Claim C8 fails as stated: `1abc` and `12 threads` are neither `true` nor
`TRUE` nor, in their entirety, the numeral of a positive integer, yet `atoi`
reads their leading digits as 1 and 12 and `verbose()` returns false. -/
theorem C8_counterexample :
    "1abc".toList ≠ "true".toList ∧ "1abc".toList ≠ "TRUE".toList ∧
    "12 threads".toList ≠ "true".toList ∧ "12 threads".toList ≠ "TRUE".toList ∧
    wholePositiveNumeral "1abc".toList = false ∧
    atoi "1abc".toList = 1 ∧
    progress.verbose (quietEnv (some "1abc".toList)) = false ∧
    wholePositiveNumeral "12 threads".toList = false ∧
    atoi "12 threads".toList = 12 ∧
    progress.verbose (quietEnv (some "12 threads".toList)) = false := by
  decide

/-- Claim C9: when `verbose()` is false at construction, the indicator holds the
empty thread, which is not joinable; no sequence of events writes to the
diagnostic stream (the only events that can take place are `operator++` calls,
and every sequence of valid calls does take place); and the destructor makes
no join, so it never waits. -/
theorem C9_quiet_mode_no_thread_no_output (env : Env) (omp : Option Int) (n : Nat)
    (name : List Char) (hq : progress.verbose env = false) :
    (progress.new env omp n name)._t = thread.empty ∧
    (progress.new env omp n name)._t.joinable = false ∧
    (progress.new env omp n name).joins = false ∧
    (Process.start (progress.new env omp n name)).step Event.poll = none ∧
    (∀ evs st, (Process.start (progress.new env omp n name)).exec evs = some st →
      st.cerr = [] ∧ st.self._t = thread.empty ∧ st.self.joins = false ∧
        st.destructorBlocks = false) ∧
    (∀ ws : List Nat, (∀ w ∈ ws, w < (progress.new env omp n name)._i.length) →
      ws.length < ULONG_RANGE →
      ∃ st, (Process.start (progress.new env omp n name)).exec (ws.map Event.advance) = some st ∧
        st.cerr = [] ∧ accumulate st.self._i = ws.length) := by
  have ht : (progress.new env omp n name)._t = thread.empty := by
    simp [progress.new, hq]
  refine ⟨ht, by rw [ht]; rfl, by simp only [progress.joins, ht]; rfl, ?_, ?_, ?_⟩
  · simp [Process.step, Process.start, ht, thread.joinable]
  · intro evs st h
    obtain ⟨a1, a2, _⟩ := exec_without_thread evs _ st ht h
    refine ⟨a2, a1, by simp only [progress.joins, a1]; rfl, ?_⟩
    simp only [Process.destructorBlocks, progress.joins, a1]
    rfl
  · intro ws hw hk
    have hsum : (progress.new env omp n name)._i.sum = 0 := init_i_sum omp
    obtain ⟨q, hq1, hq2, _⟩ := advanceAll_spec ws (progress.new env omp n name) hw (by omega)
    refine ⟨{ Process.start (progress.new env omp n name) with self := q }, ?_, rfl, ?_⟩
    · rw [exec_advances]
      simp only [Process.start, hq1, Option.map_some']
    · simp only
      rw [accumulate_eq_sum q._i (by omega)]
      omega

/-- Witness of C9: `SMT_QUIET=1`, two workers, three calls. -/
theorem C9_witness :
    progress.verbose (quietEnv (some "1".toList)) = false ∧
    ∀ evs st, (Process.start (progress.new (quietEnv (some "1".toList)) (some 2) 3
        "Progress".toList)).exec evs = some st →
      st.cerr = [] ∧ st.self._t = thread.empty ∧ st.self.joins = false ∧
        st.destructorBlocks = false :=
  ⟨by decide, (C9_quiet_mode_no_thread_no_output (quietEnv (some "1".toList)) (some 2) 3
    "Progress".toList (by decide)).2.2.2.2.1⟩

/-- Claim C10: one iteration of the render loop ends the loop exactly when the
sum is at least the total and continues exactly when the sum is below it. A
continuing iteration writes the rendered line, which ends in a carriage
return, and nothing after it; the ending iteration writes the rendered line
followed by a line break. In the process a continuing pass leaves the loop
running and the ending pass marks it as left. -/
theorem C10_iteration_ends_iff_sum_reaches_total (p : progress) :
    (p.iteration.brk = true ↔ p._n ≤ accumulate p._i) ∧
    (p.iteration.brk = false ↔ accumulate p._i < p._n) ∧
    (accumulate p._i < p._n →
      ∃ body, progress.render (accumulate p._i) p._n p._name = some (body ++ ['\r']) ∧
        p.iteration.out = some (body ++ ['\r'])) ∧
    (p._n ≤ accumulate p._i →
      p.iteration.out =
        (progress.render (accumulate p._i) p._n p._name).map fun line => line ++ ['\n']) ∧
    (0 < p._n → p._n ≤ accumulate p._i →
      ∃ body, progress.render (accumulate p._i) p._n p._name = some (body ++ ['\r']) ∧
        p.iteration.out = some (body ++ ['\r'] ++ ['\n'])) ∧
    (∀ cerr, p._t = thread.started → accumulate p._i < p._n →
      ∃ body, Process.step (Process.mk p cerr false) Event.poll
        = some (Process.mk p (cerr ++ (body ++ ['\r'])) false)) ∧
    (∀ cerr, p._t = thread.started → 0 < p._n → p._n ≤ accumulate p._i →
      ∃ body, Process.step (Process.mk p cerr false) Event.poll
        = some (Process.mk p (cerr ++ (body ++ ['\r'] ++ ['\n'])) true)) := by
  have hbody : 0 < p._n →
      ∃ body, progress.render (accumulate p._i) p._n p._name = some (body ++ ['\r']) := by
    intro hn
    obtain ⟨k, _, hp⟩ := pos_defined (accumulate p._i) p._n hn
    obtain ⟨j, _, _, hq⟩ := percent_defined (accumulate p._i) p._n hn
    refine ⟨progress.label p._name ++ progress.bar k ++ [']', ' '] ++ setw 3 (Nat.toDigits 10 j)
      ++ ['%'], ?_⟩
    rw [render_eq _ _ _ k _ hp hq]
    simp only [List.append_assoc, List.cons_append, List.nil_append]
  refine ⟨?_, ?_, ?_, ?_, ?_, ?_, ?_⟩
  · simp only [progress.iteration]
    split_ifs with h
    · simp only [Bool.false_eq_true, false_iff]; omega
    · simp only [true_iff]; omega
  · simp only [progress.iteration]
    split_ifs with h
    · simp only [true_iff]; exact h
    · simp only [Bool.true_eq_false, false_iff]; exact h
  · intro h
    obtain ⟨body, hb⟩ := hbody (by omega)
    refine ⟨body, hb, ?_⟩
    simp only [progress.iteration, h, if_true, hb]
  · intro h
    have h2 : ¬ accumulate p._i < p._n := by omega
    simp only [progress.iteration, h2, if_false]
  · intro hn h
    obtain ⟨body, hb⟩ := hbody hn
    have h2 : ¬ accumulate p._i < p._n := by omega
    refine ⟨body, hb, ?_⟩
    simp only [progress.iteration, h2, if_false, hb, Option.map_some']
  · intro cerr ht h
    obtain ⟨body, hb⟩ := hbody (by omega)
    refine ⟨body, ?_⟩
    simp only [Process.step, ht, thread.joinable, progress.iteration, h, if_true, hb,
      and_self, Option.map_some']
  · intro cerr ht hn h
    obtain ⟨body, hb⟩ := hbody hn
    have h2 : ¬ accumulate p._i < p._n := by omega
    refine ⟨body, ?_⟩
    simp only [Process.step, ht, thread.joinable, progress.iteration, h2, if_false, hb,
      and_self, if_true, Option.map_some']

/-! ## Theorems: frame of `operator++`, the label, the line width -/

theorem label_length (name : List Char) : (progress.label name).length = 23 := by
  simp only [progress.label, List.length_append, List.length_take, List.length_replicate,
    List.length_singleton, List.length_cons, List.length_nil]
  omega

theorem label_take (name : List Char) : progress.label (name.take 18) = progress.label name := by
  simp only [progress.label, List.take_take, List.length_take, Nat.min_self]
  have h : min (min 18 name.length) 18 = min name.length 18 := by omega
  rw [h]

/-- One increment of a valid slot: the slot holds its old value plus one modulo
`2 ^ 64`, every other slot and the length are as before. -/
theorem incr_frame (a : darray) (w : Nat) (hw : w < a.length) :
    ∃ b, a.incr w = some b ∧ b.length = a.length ∧
      b[w]? = some ((a.get ⟨w, hw⟩ + 1) % ULONG_RANGE) ∧
      ∀ k, k ≠ w → b[k]? = a[k]? := by
  refine ⟨a.set w ((a.get ⟨w, hw⟩ + 1) % ULONG_RANGE), ?_, by simp, ?_, ?_⟩
  · simp only [darray.incr, hw, dite_true]
  · simp [hw]
  · intro k hk
    exact List.getElem?_set_ne (Ne.symm hk)

theorem accumulate_aux_mod (a : darray) (c : Nat) :
    a.foldl (fun acc x => (acc + x) % ULONG_RANGE) c % ULONG_RANGE = (c + a.sum) % ULONG_RANGE := by
  induction a generalizing c with
  | nil => simp
  | cons x xs ih =>
    simp only [List.foldl_cons, List.sum_cons]
    rw [ih ((c + x) % ULONG_RANGE), Nat.add_mod, Nat.mod_mod, ← Nat.add_mod, Nat.add_assoc]

theorem accumulate_lt (a : darray) : accumulate a < ULONG_RANGE := by
  unfold accumulate
  have hpos : 0 < ULONG_RANGE := by decide
  rcases List.eq_nil_or_concat a with h | ⟨xs, x, h⟩
  · subst h; exact hpos
  · subst h
    simp only [List.concat_eq_append, List.foldl_append, List.foldl_cons, List.foldl_nil]
    exact Nat.mod_lt _ hpos

/-- The value `std::accumulate` returns is the arithmetic sum modulo `2 ^ 64`. -/
theorem accumulate_eq_mod (a : darray) : accumulate a = a.sum % ULONG_RANGE := by
  have h := accumulate_aux_mod a 0
  rw [Nat.zero_add] at h
  rw [← h]
  exact (Nat.mod_eq_of_lt (accumulate_lt a)).symm

/-- Claim C11 fails as stated: a slot that holds `2 ^ 64 - 1` does not grow by
one, the `unsigned long int` wraps to `0`. -/
theorem C11_counterexample :
    progress.advance (progress.mk 100 5 [] [18446744073709551615, 7] thread.empty) 0 =
      some (progress.mk 100 5 [] [0, 7] thread.empty) := by
  decide

/-- Claim C11, amended: for every state and every valid worker index `w`,
`operator++` cannot fail; slot `w` then holds its old value plus one modulo
`2 ^ 64`, which is the old value plus one unless the slot held `2 ^ 64 - 1`;
every other slot, the slot count, the total, the name, the poll interval, the
thread member and the output of the diagnostic stream are unchanged. -/
theorem C11_advance_changes_only_its_slot (st : Process) (w : Nat)
    (hw : w < st.self._i.length) :
    ∃ st', st.step (Event.advance w) = some st' ∧
      st'.self._i[w]? = some ((st.self._i.get ⟨w, hw⟩ + 1) % ULONG_RANGE) ∧
      (st.self._i.get ⟨w, hw⟩ + 1 < ULONG_RANGE →
        st'.self._i[w]? = some (st.self._i.get ⟨w, hw⟩ + 1)) ∧
      (∀ k, k ≠ w → st'.self._i[k]? = st.self._i[k]?) ∧
      st'.self._i.length = st.self._i.length ∧
      st'.self._n = st.self._n ∧ st'.self._name = st.self._name ∧
      st'.self._delay = st.self._delay ∧ st'.self._t = st.self._t ∧
      st'.cerr = st.cerr ∧ st'.exited = st.exited := by
  obtain ⟨b, hb, hlen, hget, hother⟩ := incr_frame st.self._i w hw
  refine ⟨{ st with self := { st.self with _i := b } }, ?_, hget, ?_, hother, hlen,
    rfl, rfl, rfl, rfl, rfl, rfl⟩
  · simp only [Process.step, progress.advance, hb, Option.map_some']
  · intro h
    rw [hget, Nat.mod_eq_of_lt h]

/-- Witness of C11: worker 1 advances on slots `[3, 4]` after some output. -/
theorem C11_witness :
    ∃ st', (Process.mk (progress.mk 100 9 ['a'] [3, 4] thread.started) ['x'] false).step
        (Event.advance 1) = some st' ∧
      st'.self._i[1]? = some ((4 + 1) % ULONG_RANGE) ∧
      (4 + 1 < ULONG_RANGE → st'.self._i[1]? = some (4 + 1)) ∧
      (∀ k, k ≠ 1 → st'.self._i[k]? = [3, 4][k]?) ∧
      st'.self._i.length = 2 ∧
      st'.self._n = 9 ∧ st'.self._name = ['a'] ∧
      st'.self._delay = 100 ∧ st'.self._t = thread.started ∧
      st'.cerr = ['x'] ∧ st'.exited = false :=
  C11_advance_changes_only_its_slot
    (Process.mk (progress.mk 100 9 ['a'] [3, 4] thread.started) ['x'] false) 1 (by decide)

/-- Claim C12: the line of one iteration depends on the slots only through
their sum: two indicators with the same total, the same name and slot arrays
of equal sum (whatever the slot counts and the spread of the counts) render
the same text, and their iterations are equal. -/
theorem C12_line_depends_on_sum_total_name (p1 p2 : progress)
    (hn : p1._n = p2._n) (hname : p1._name = p2._name) (hs : p1._i.sum = p2._i.sum) :
    accumulate p1._i = accumulate p2._i ∧
    progress.render (accumulate p1._i) p1._n p1._name =
      progress.render (accumulate p2._i) p2._n p2._name ∧
    p1.iteration = p2.iteration := by
  have ha : accumulate p1._i = accumulate p2._i := by
    rw [accumulate_eq_mod, accumulate_eq_mod, hs]
  refine ⟨ha, by rw [ha, hn, hname], ?_⟩
  simp only [progress.iteration, ha, hn, hname]

/-- Witness of C12: the sum 3 held as `[3, 0]` by two slots and as `[1, 1, 1]`
by three. -/
theorem C12_witness :
    accumulate [3, 0] = accumulate [1, 1, 1] ∧
    progress.render (accumulate [3, 0]) 4 ['a'] = progress.render (accumulate [1, 1, 1]) 4 ['a'] ∧
    (progress.mk 100 4 ['a'] [3, 0] thread.started).iteration =
      (progress.mk 50 4 ['a'] [1, 1, 1] thread.empty).iteration :=
  C12_line_depends_on_sum_total_name (progress.mk 100 4 ['a'] [3, 0] thread.started)
    (progress.mk 50 4 ['a'] [1, 1, 1] thread.empty) rfl rfl (by decide)

/-- Claim C13: the line begins with the first `min(length, 18)` characters of
the name, in order, then one space and the first dot; the characters of the
name from index 18 on have no part in the line, which is the line of the name
cut to 18 characters; a name of at most 18 characters appears in full. -/
theorem C13_line_begins_with_truncated_name (name : List Char) (sum_i n : Nat) :
    (name.take 18).length = min name.length 18 ∧
    (∀ k, k < min name.length 18 → (name.take 18)[k]? = name[k]?) ∧
    (name.length ≤ 18 → name.take 18 = name) ∧
    progress.label name = name.take 18 ++ [' ', '.'] ++
      (List.replicate (19 - min name.length 18) '.' ++ [' ', '[']) ∧
    progress.render sum_i n name = progress.render sum_i n (name.take 18) ∧
    (0 < n → ∃ rest, progress.render sum_i n name = some (name.take 18 ++ [' ', '.'] ++ rest)) := by
  have hlab : progress.label name = name.take 18 ++ [' ', '.'] ++
      (List.replicate (19 - min name.length 18) '.' ++ [' ', '[']) := by
    have h : 20 - min name.length 18 = (19 - min name.length 18) + 1 := by omega
    simp only [progress.label, h, List.replicate_succ, List.append_assoc, List.cons_append,
      List.nil_append]
  refine ⟨?_, ?_, ?_, hlab, ?_, ?_⟩
  · rw [List.length_take]; omega
  · intro k hk
    rw [List.getElem?_take, if_pos (by omega)]
  · intro h
    exact List.take_of_length_le h
  · simp only [progress.render, label_take]
  · intro hn
    obtain ⟨k, _, hp⟩ := pos_defined sum_i n hn
    obtain ⟨j, _, _, hq⟩ := percent_defined sum_i n hn
    refine ⟨(List.replicate (19 - min name.length 18) '.' ++ [' ', '[']) ++ progress.bar k ++
      [']', ' '] ++ setw 3 (Nat.toDigits 10 j) ++ ['%', '\r'], ?_⟩
    rw [render_eq sum_i n name k _ hp hq, hlab]
    simp only [List.append_assoc]

/-- Claim C15: right after construction the slot array has at least one slot
(exactly one without OpenMP, `max(omp_get_max_threads(), 1)` with it), every
slot holds zero, and the sum is zero. -/
theorem C15_fresh_slots_are_zero (env : Env) (omp : Option Int) (n : Nat) (name : List Char) :
    1 ≤ (progress.new env omp n name)._i.length ∧
    (omp = none → (progress.new env omp n name)._i.length = 1) ∧
    (∀ t : Int, omp = some t → ((progress.new env omp n name)._i.length : Int) = max t 1) ∧
    (∀ x ∈ (progress.new env omp n name)._i, x = 0) ∧
    (progress.new env omp n name)._i.sum = 0 ∧
    accumulate (progress.new env omp n name)._i = 0 := by
  refine ⟨init_i_length_pos omp, ?_, ?_, ?_, init_i_sum omp, ?_⟩
  · intro h
    subst h
    simp [progress.new, progress.init_i, darray.zeros]
  · intro t h
    subst h
    simp only [progress.new, progress.init_i, darray.zeros, List.length_replicate]
    omega
  · intro x hx
    cases omp <;>
      simp only [progress.new, progress.init_i, darray.zeros] at hx <;>
      exact (List.eq_of_mem_replicate hx)
  · have h0 : (progress.new env omp n name)._i.sum = 0 := init_i_sum omp
    rw [accumulate_eq_sum _ (by rw [h0]; decide), h0]

/-- Claim C16: for a positive total the line of one iteration, up to and
including the carriage return, is 80 characters long whatever the sum and the
name: the label with its bracket is 23 wide, the bar 50, the percentage field
3. -/
theorem C16_line_length_is_constant (sum_i n : Nat) (name : List Char)
    (hn : 0 < n) (_hs : sum_i < ULONG_RANGE) (_hn : n < ULONG_RANGE) :
    ∃ pos pct line, progress.render sum_i n name = some line ∧
      line = progress.label name ++ progress.bar pos ++ [']', ' '] ++ setw 3 pct ++ ['%', '\r'] ∧
      (progress.label name).length = 23 ∧
      (progress.bar pos).length = 50 ∧
      (setw 3 pct).length = 3 ∧
      line.length = 80 := by
  obtain ⟨k, _, hp⟩ := pos_defined sum_i n hn
  obtain ⟨j, hj, _, hq⟩ := percent_defined sum_i n hn
  have h3 := setw_length 3 _ (digits_length j hj).2
  refine ⟨k, Nat.toDigits 10 j, _, render_eq sum_i n name k _ hp hq, rfl, label_length name,
    bar_length k, h3, ?_⟩
  simp only [List.length_append, label_length, bar_length, h3, List.length_cons,
    List.length_nil]

/-- Witness of C16: an empty name at 0 of 7 and a 30-character name at 7 of 7
both give 80 characters. -/
theorem C16_witness :
    (∃ pos pct line, progress.render 0 7 [] = some line ∧
      line = progress.label [] ++ progress.bar pos ++ [']', ' '] ++ setw 3 pct ++ ['%', '\r'] ∧
      (progress.label []).length = 23 ∧
      (progress.bar pos).length = 50 ∧
      (setw 3 pct).length = 3 ∧
      line.length = 80) ∧
    (progress.render 7 7 (List.replicate 30 'x')).map List.length = some 80 :=
  ⟨C16_line_length_is_constant 0 7 [] (by decide) (by decide) (by decide), by decide⟩

/-! ## Theorems: slots never decrease -/

theorem forall2_le_refl (a : List Nat) : List.Forall₂ (· ≤ ·) a a := by
  induction a with
  | nil => exact List.Forall₂.nil
  | cons x xs ih => exact List.Forall₂.cons (le_refl x) ih

theorem forall2_le_trans (a b c : List Nat) (h1 : List.Forall₂ (· ≤ ·) a b)
    (h2 : List.Forall₂ (· ≤ ·) b c) : List.Forall₂ (· ≤ ·) a c := by
  induction h1 generalizing c with
  | nil => cases h2; exact List.Forall₂.nil
  | cons hxy _ ih =>
    cases h2 with
    | cons hyz h2' => exact List.Forall₂.cons (le_trans hxy hyz) (ih _ h2')

theorem forall2_le_sum (a b : List Nat) (h : List.Forall₂ (· ≤ ·) a b) : a.sum ≤ b.sum := by
  induction h with
  | nil => exact le_refl _
  | cons hxy _ ih =>
    simp only [List.sum_cons]
    exact Nat.add_le_add hxy ih

theorem forall2_le_set (a : List Nat) (w v : Nat) (hw : w < a.length)
    (hv : a.get ⟨w, hw⟩ ≤ v) : List.Forall₂ (· ≤ ·) a (a.set w v) := by
  induction a generalizing w with
  | nil => simp at hw
  | cons x xs ih =>
    cases w with
    | zero => exact List.Forall₂.cons hv (forall2_le_refl xs)
    | succ w =>
      simp only [List.length_cons, Nat.succ_lt_succ_iff] at hw
      exact List.Forall₂.cons (le_refl x) (ih w hw hv)

/-- An event that keeps the slots below `2 ^ 64` lowers no slot and keeps the
total and the name; a pass of the loop leaves the whole object as it is. -/
theorem step_monotone (st st' : Process) (ev : Event) (h : st.step ev = some st')
    (hk : st.keepsBelow ev = true) :
    List.Forall₂ (· ≤ ·) st.self._i st'.self._i ∧ st'.self._n = st.self._n ∧
      st'.self._name = st.self._name := by
  cases ev with
  | advance w =>
    simp only [Process.step, progress.advance, Option.map_eq_some'] at h
    obtain ⟨q, ⟨b, hb, rfl⟩, rfl⟩ := h
    refine ⟨?_, rfl, rfl⟩
    simp only [darray.incr] at hb
    split at hb
    · rename_i hw
      simp only [Option.some.injEq] at hb
      subst hb
      have hget : st.self._i[w]? = some (st.self._i.get ⟨w, hw⟩) := by
        simp [hw]
      simp only [Process.keepsBelow, hget, decide_eq_true_eq] at hk
      rw [Nat.mod_eq_of_lt hk]
      exact forall2_le_set _ w _ hw (Nat.le_succ _)
    · exact absurd hb (by simp)
  | poll =>
    simp only [Process.step] at h
    split at h
    · simp only [Option.map_eq_some'] at h
      obtain ⟨text, _, rfl⟩ := h
      exact ⟨forall2_le_refl _, rfl, rfl⟩
    · exact absurd h (by simp)

theorem poll_reads_only (st st' : Process) (h : st.step Event.poll = some st') :
    st'.self = st.self := by
  simp only [Process.step] at h
  split at h
  · simp only [Option.map_eq_some'] at h
    obtain ⟨text, _, rfl⟩ := h
    rfl
  · exact absurd h (by simp)

theorem exec_monotone (evs : List Event) (st st' : Process) (h : st.exec evs = some st')
    (hw : st.noWrap evs = true) :
    List.Forall₂ (· ≤ ·) st.self._i st'.self._i ∧ st'.self._n = st.self._n ∧
      st'.self._name = st.self._name := by
  induction evs generalizing st with
  | nil =>
    simp only [Process.exec, List.foldlM_nil, Option.pure_def, Option.some.injEq] at h
    subst h
    exact ⟨forall2_le_refl _, rfl, rfl⟩
  | cons ev evs ih =>
    simp only [Process.exec, List.foldlM_cons, Option.bind_eq_bind, Option.bind_eq_some] at h
    obtain ⟨mid, hmid, hrest⟩ := h
    simp only [Process.noWrap, hmid, Bool.and_eq_true] at hw
    obtain ⟨a1, a2, a3⟩ := step_monotone st mid ev hmid hw.1
    obtain ⟨b1, b2, b3⟩ := ih mid hrest hw.2
    exact ⟨forall2_le_trans _ _ _ a1 b1, b2.trans a2, b3.trans a3⟩

theorem exec_append (e1 e2 : List Event) (st st' : Process)
    (h : st.exec (e1 ++ e2) = some st') :
    ∃ mid, st.exec e1 = some mid ∧ mid.exec e2 = some st' ∧
      (st.noWrap (e1 ++ e2) = true → st.noWrap e1 = true ∧ mid.noWrap e2 = true) := by
  induction e1 generalizing st with
  | nil =>
    refine ⟨st, by simp [Process.exec], by simpa using h, fun hw => ⟨rfl, by simpa using hw⟩⟩
  | cons ev evs ih =>
    simp only [Process.exec, List.cons_append, List.foldlM_cons, Option.bind_eq_bind,
      Option.bind_eq_some] at h
    obtain ⟨nxt, hnxt, hrest⟩ := h
    obtain ⟨mid, m1, m2, m3⟩ := ih nxt hrest
    refine ⟨mid, ?_, m2, ?_⟩
    · simp only [Process.exec, List.foldlM_cons, hnxt, Option.bind_eq_bind, Option.some_bind]
      exact m1
    · intro hw
      simp only [List.cons_append, Process.noWrap, hnxt, Bool.and_eq_true] at hw ⊢
      obtain ⟨n1, n2⟩ := m3 hw.2
      exact ⟨⟨hw.1, n1⟩, n2⟩

/-- Claim C14: along every sequence of `operator++` calls and passes of the
render loop in which no slot reaches `2 ^ 64`, between any two moments no slot
has decreased and the sum of the slots has not decreased, the total and the
name are as at the start, and a pass of the loop leaves the whole object, its
slots included, unchanged. -/
theorem C14_slots_and_sum_never_decrease (st st' : Process) (evs : List Event)
    (h : st.exec evs = some st') (hw : st.noWrap evs = true) :
    (∀ e1 e2, evs = e1 ++ e2 →
      ∃ mid, st.exec e1 = some mid ∧ mid.exec e2 = some st' ∧
        List.Forall₂ (· ≤ ·) st.self._i mid.self._i ∧
        List.Forall₂ (· ≤ ·) mid.self._i st'.self._i ∧
        st.self._i.sum ≤ mid.self._i.sum ∧ mid.self._i.sum ≤ st'.self._i.sum ∧
        mid.self._n = st.self._n ∧ mid.self._name = st.self._name) ∧
    List.Forall₂ (· ≤ ·) st.self._i st'.self._i ∧
    st.self._i.sum ≤ st'.self._i.sum ∧
    st'.self._i.length = st.self._i.length ∧
    st'.self._n = st.self._n ∧ st'.self._name = st.self._name ∧
    (∀ s s' : Process, s.step Event.poll = some s' → s'.self = s.self) := by
  obtain ⟨a1, a2, a3⟩ := exec_monotone evs st st' h hw
  refine ⟨?_, a1, forall2_le_sum _ _ a1, (List.Forall₂.length_eq a1).symm, a2, a3,
    poll_reads_only⟩
  intro e1 e2 he
  subst he
  obtain ⟨mid, m1, m2, m3⟩ := exec_append e1 e2 st st' h
  obtain ⟨w1, w2⟩ := m3 hw
  obtain ⟨b1, b2, b3⟩ := exec_monotone e1 st mid m1 w1
  obtain ⟨c1, _, _⟩ := exec_monotone e2 mid st' m2 w2
  exact ⟨mid, m1, m2, b1, c1, forall2_le_sum _ _ b1, forall2_le_sum _ _ c1, b2, b3⟩

/-- Witness of C14: on a fresh indicator with two slots and total 3, worker 0
advances, the loop makes a pass, worker 1 advances. -/
theorem C14_witness :
    List.Forall₂ (· ≤ ·)
      (progress.new (quietEnv none) (some 2) 3 ['a', 'b'])._i [1, 1] ∧
    (progress.new (quietEnv none) (some 2) 3 ['a', 'b'])._i.sum ≤ [1, 1].sum ∧
    [1, 1].length = (progress.new (quietEnv none) (some 2) 3 ['a', 'b'])._i.length ∧
    3 = (progress.new (quietEnv none) (some 2) 3 ['a', 'b'])._n ∧
    ['a', 'b'] = (progress.new (quietEnv none) (some 2) 3 ['a', 'b'])._name ∧
    (∀ s s' : Process, s.step Event.poll = some s' → s'.self = s.self) :=
  (C14_slots_and_sum_never_decrease
    (Process.start (progress.new (quietEnv none) (some 2) 3 ['a', 'b']))
    (Process.mk (progress.mk 100 3 ['a', 'b'] [1, 1] thread.started)
      ((progress.render 1 3 ['a', 'b']).getD []) false)
    [Event.advance 0, Event.poll, Event.advance 1] (by decide) (by decide)).2

/-! ## Theorems: the displayed progress is monotone -/

theorem ofRat_mono_rat (p1 q1 p2 q2 : Nat) (hq1 : 0 < q1) (hq2 : 0 < q2)
    (h : (p1 : ℚ) / q1 ≤ (p2 : ℚ) / q2) :
    (F32.ofRat p1 q1).toRat ≤ (F32.ofRat p2 q2).toRat := by
  apply ofRat_mono p1 q1 p2 q2 hq1 hq2
  have a1 : (0 : ℚ) < q1 := by exact_mod_cast hq1
  have a2 : (0 : ℚ) < q2 := by exact_mod_cast hq2
  rw [div_le_div_iff₀ a1 a2] at h
  exact_mod_cast h

/-- The quotient that `F32.div` rounds is the quotient of the two values. -/
theorem div_arg (m1 m2 : Nat) (e1 e2 : Int) :
    ((m1 * 2 ^ (e1 - e2).toNat : Nat) : ℚ) / ((m2 * 2 ^ (e2 - e1).toNat : Nat) : ℚ) =
      ((m1 : ℚ) * 2 ^ e1) / ((m2 : ℚ) * 2 ^ e2) := by
  have hneg : e1 - e2 = -(e2 - e1) := by ring
  rw [hneg, scaled_div, zpow_sub₀ (by norm_num : (2 : ℚ) ≠ 0)]
  have z1 := (two_zpow_pos e1).ne'
  have z2 := (two_zpow_pos e2).ne'
  rcases Nat.eq_zero_or_pos m2 with h0 | h0
  · subst h0; simp
  · have hm : (m2 : ℚ) ≠ 0 := by exact_mod_cast h0.ne'
    field_simp

/-- The product that `F32.mul` rounds is the product of the two values. -/
theorem mul_arg (m1 m2 : Nat) (e1 e2 : Int) :
    ((m1 * m2 * 2 ^ (e1 + e2).toNat : Nat) : ℚ) / ((2 ^ (-(e1 + e2)).toNat : Nat) : ℚ) =
      ((m1 : ℚ) * 2 ^ e1) * ((m2 : ℚ) * 2 ^ e2) := by
  have h := scaled_div (m1 * m2) 1 (-(e1 + e2))
  rw [neg_neg, one_mul] at h
  rw [h, zpow_neg, zpow_add₀ (by norm_num : (2 : ℚ) ≠ 0)]
  have z1 := (two_zpow_pos e1).ne'
  have z2 := (two_zpow_pos e2).ne'
  push_cast
  field_simp
  ring

theorem mul_fin_mono (mc m1 m2 : Nat) (ec e1 e2 : Int)
    (h : (m1 : ℚ) * 2 ^ e1 ≤ (m2 : ℚ) * 2 ^ e2) :
    (F32.mul (.fin mc ec) (.fin m1 e1)).toRat ≤ (F32.mul (.fin mc ec) (.fin m2 e2)).toRat := by
  simp only [F32.mul]
  apply ofRat_mono_rat _ _ _ _ (by positivity) (by positivity)
  rw [mul_arg, mul_arg]
  exact mul_le_mul_of_nonneg_left h (mul_nonneg (Nat.cast_nonneg _) (two_zpow_pos _).le)

/-- For a positive total the fraction `prgs` does not decrease when the sum
grows. -/
theorem prgs_mono (s1 s2 n : Nat) (hn : 0 < n) (h : s1 ≤ s2) :
    (progress.prgs s1 n).toRat ≤ (progress.prgs s2 n).toRat := by
  obtain ⟨m2, e2, r2, h21, h22, _⟩ := ofRat_spec n 1 hn Nat.one_pos
  obtain ⟨a1, b1, ra1, _⟩ := ofRat_canonical s1 1 Nat.one_pos
  obtain ⟨a2, b2, ra2, _⟩ := ofRat_canonical s2 1 Nat.one_pos
  have hmono := ofRat_mono s1 1 s2 1 Nat.one_pos Nat.one_pos (by omega)
  rw [ra1, ra2] at hmono
  simp only [F32.toRat] at hmono
  have hm2 : m2 ≠ 0 := by
    have : 0 < 2 ^ 23 := by norm_num
    omega
  have hm2q : (0 : ℚ) < (m2 : ℚ) * 2 ^ e2 :=
    mul_pos (by exact_mod_cast Nat.pos_of_ne_zero hm2) (two_zpow_pos e2)
  have hQ1 : 0 < m2 * 2 ^ (e2 - b1).toNat := Nat.mul_pos (by omega) (by positivity)
  have hQ2 : 0 < m2 * 2 ^ (e2 - b2).toNat := Nat.mul_pos (by omega) (by positivity)
  have hd := ofRat_mono_rat (a1 * 2 ^ (b1 - e2).toNat) _ (a2 * 2 ^ (b2 - e2).toNat) _ hQ1 hQ2
    (by rw [div_arg, div_arg]; exact div_le_div_of_nonneg_right hmono hm2q.le)
  obtain ⟨c1, d1, rc1, _⟩ := ofRat_canonical (a1 * 2 ^ (b1 - e2).toNat) _ hQ1
  obtain ⟨c2, d2, rc2, _⟩ := ofRat_canonical (a2 * 2 ^ (b2 - e2).toNat) _ hQ2
  rw [rc1, rc2] at hd
  simp only [F32.toRat] at hd
  simp only [progress.prgs, F32.ofNat, ra1, ra2, r2, div_fin _ _ _ _ hm2, rc1, rc2, F32.min,
    F32.one]
  by_cases l1 : F32.lt (.fin (2 ^ 23) (-23)) (.fin c1 d1) = true
  · have l2 : F32.lt (.fin (2 ^ 23) (-23)) (.fin c2 d2) = true := by
      rw [lt_fin_iff] at l1 ⊢
      exact lt_of_lt_of_le l1 hd
    rw [if_pos l1, if_pos l2]
  · rw [if_neg l1]
    have hle : (c1 : ℚ) * 2 ^ d1 ≤ 1 := by
      rw [lt_fin_iff, one_toRat] at l1
      exact not_lt.1 l1
    by_cases l2 : F32.lt (.fin (2 ^ 23) (-23)) (.fin c2 d2) = true
    · rw [if_pos l2]
      simp only [F32.toRat]
      rw [one_toRat]
      exact hle
    · rw [if_neg l2]
      simp only [F32.toRat]
      exact hd

/-- The floor of `c * x`, for a constant `c ≤ 100` that `float` holds exactly and
an `x ≤ 1`, is the whole number `k ≤ c` with `k ≤ c * x < k + 1`, the product
being the rounded one. -/
theorem floor_mul_spec (c mc : Nat) (ec : Int) (hc : F32.ofNat c = .fin mc ec)
    (cval : (mc : ℚ) * 2 ^ ec = c) (hc100 : c ≤ 100) (m : Nat) (e : Int)
    (hv : (m : ℚ) * 2 ^ e ≤ 1) :
    ∃ k, k ≤ c ∧ F32.floor (F32.mul (F32.ofNat c) (.fin m e)) = F32.ofNat k ∧
      (k : ℚ) ≤ (F32.mul (F32.ofNat c) (.fin m e)).toRat ∧
      (F32.mul (F32.ofNat c) (.fin m e)).toRat < (k : ℚ) + 1 := by
  have hQ : 0 < 2 ^ (-(ec + e)).toNat := by positivity
  have hmono := ofRat_mono_rat (mc * m * 2 ^ (ec + e).toNat) _ c 1 hQ Nat.one_pos (by
    rw [mul_arg, cval, Nat.cast_one, div_one]
    calc (c : ℚ) * ((m : ℚ) * 2 ^ e) ≤ (c : ℚ) * 1 :=
          mul_le_mul_of_nonneg_left hv (Nat.cast_nonneg c)
      _ = c := mul_one _)
  obtain ⟨m', e', r, can⟩ := ofRat_canonical (mc * m * 2 ^ (ec + e).toNat) _ hQ
  have hcr : F32.ofRat c 1 = .fin mc ec := hc
  rw [r, hcr] at hmono
  simp only [F32.toRat] at hmono
  rw [cval] at hmono
  have hmul : F32.mul (F32.ofNat c) (.fin m e) = .fin m' e' := by
    rw [hc]
    simp only [F32.mul]
    exact r
  rw [hmul]
  simp only [F32.floor, F32.toRat]
  by_cases he : 0 ≤ e'
  · rw [if_pos he]
    rcases can with ⟨rfl, rfl⟩ | ⟨h1, h2⟩
    · exact ⟨0, Nat.zero_le _, by decide, by simp, by simp⟩
    · exfalso
      have a1 : (2 : ℚ) ^ 23 ≤ m' := by exact_mod_cast h1
      have a2 : (1 : ℚ) ≤ 2 ^ e' := by
        have := zpow_le_zpow_right₀ (by norm_num : (1 : ℚ) ≤ 2) he
        simpa using this
      have a3 : (c : ℚ) ≤ 100 := by exact_mod_cast hc100
      have a4 : (2 : ℚ) ^ 23 * 1 ≤ (m' : ℚ) * 2 ^ e' :=
        mul_le_mul a1 a2 (by norm_num) (Nat.cast_nonneg _)
      norm_num at a4
      linarith
  · rw [if_neg he]
    have e0 : e'.toNat = 0 := by omega
    have hpow : 0 < 2 ^ (-e').toNat := by positivity
    refine ⟨m' / 2 ^ (-e').toNat, ?_, rfl, ?_, ?_⟩
    · have hs : m' * 2 ^ e'.toNat ≤ c * 2 ^ (-e').toNat := (scaled_le m' c e').2 hmono
      rw [e0, pow_zero, mul_one] at hs
      apply Nat.div_le_of_le_mul
      rw [mul_comm]
      exact hs
    · apply not_lt.1
      intro hlt
      have h1 := (scaled_lt m' (m' / 2 ^ (-e').toNat) e').2 hlt
      rw [e0, pow_zero, mul_one] at h1
      have h2 := Nat.div_mul_le_self m' (2 ^ (-e').toNat)
      omega
    · have h1 : m' * 2 ^ e'.toNat < (m' / 2 ^ (-e').toNat + 1) * 2 ^ (-e').toNat := by
        rw [e0, pow_zero, mul_one, mul_comm]
        exact Nat.lt_mul_div_succ m' hpow
      have h2 := (scaled_lt m' (m' / 2 ^ (-e').toNat + 1) e').1 h1
      push_cast at h2
      exact h2

/-- The floor of the rounded product `c * prgs` does not decrease when the sum
grows. -/
theorem scaled_floor_mono (c mc : Nat) (ec : Int) (hc : F32.ofNat c = .fin mc ec)
    (cval : (mc : ℚ) * 2 ^ ec = c) (hc100 : c ≤ 100) (s1 s2 n : Nat) (hn : 0 < n)
    (h : s1 ≤ s2) :
    ∃ k1 k2, k1 ≤ k2 ∧ k2 ≤ c ∧
      F32.floor (F32.mul (F32.ofNat c) (progress.prgs s1 n)) = F32.ofNat k1 ∧
      F32.floor (F32.mul (F32.ofNat c) (progress.prgs s2 n)) = F32.ofNat k2 := by
  have hp := prgs_mono s1 s2 n hn h
  obtain ⟨m1, e1, r1, _, v1⟩ := prgs_canonical s1 n hn
  obtain ⟨m2, e2, r2, _, v2⟩ := prgs_canonical s2 n hn
  rw [r1, r2] at hp ⊢
  simp only [F32.toRat] at hp
  obtain ⟨k1, _, f1, lo1, _⟩ := floor_mul_spec c mc ec hc cval hc100 m1 e1 v1
  obtain ⟨k2, hk2, f2, _, hi2⟩ := floor_mul_spec c mc ec hc cval hc100 m2 e2 v2
  have hm := mul_fin_mono mc m1 m2 ec e1 e2 hp
  rw [← hc] at hm
  refine ⟨k1, k2, ?_, hk2, f1, f2⟩
  have hlt : (k1 : ℚ) < (k2 : ℚ) + 1 := lt_of_le_of_lt (le_trans lo1 hm) hi2
  have : k1 < k2 + 1 := by exact_mod_cast hlt
  omega

/-- Claim C17: for every total `n > 0` and sums `s1 ≤ s2`, the bar position
for `s1` is at most the one for `s2`, and the percentage printed for `s1` is
at most the one printed for `s2`. -/
theorem C17_display_never_moves_back (s1 s2 n : Nat) (hn : 0 < n) (h : s1 ≤ s2)
    (_hs : s2 < ULONG_RANGE) (_hn : n < ULONG_RANGE) :
    ∃ p1 p2 k1 k2,
      progress.pos s1 n = some p1 ∧ progress.pos s2 n = some p2 ∧ p1 ≤ p2 ∧ p2 ≤ 50 ∧
      progress.percent s1 n = some (Nat.toDigits 10 k1) ∧
      progress.percent s2 n = some (Nat.toDigits 10 k2) ∧ k1 ≤ k2 ∧ k2 ≤ 100 := by
  obtain ⟨p1, p2, hp, hp2, f1, f2⟩ :=
    scaled_floor_mono 50 _ _ ofNat_fifty fifty_toRat (by norm_num) s1 s2 n hn h
  obtain ⟨k1, k2, hk, hk2, g1, g2⟩ :=
    scaled_floor_mono 100 _ _ ofNat_hundred hundred_toRat (by norm_num) s1 s2 n hn h
  refine ⟨p1, p2, k1, k2, ?_, ?_, hp, hp2, ?_, ?_, hk, hk2⟩
  · simp only [progress.pos, f1]
    exact (small_whole p1 (by omega)).1
  · simp only [progress.pos, f2]
    exact (small_whole p2 (by omega)).1
  · simp only [progress.percent, g1]
    exact (small_whole k1 (by omega)).2
  · simp only [progress.percent, g2]
    exact (small_whole k2 hk2).2

/-- Witness of C17: total 100, sums 53 and 54 (positions 26 and 27, percentages
52 and 54). -/
theorem C17_witness :
    (∃ p1 p2 k1 k2,
      progress.pos 53 100 = some p1 ∧ progress.pos 54 100 = some p2 ∧ p1 ≤ p2 ∧ p2 ≤ 50 ∧
      progress.percent 53 100 = some (Nat.toDigits 10 k1) ∧
      progress.percent 54 100 = some (Nat.toDigits 10 k2) ∧ k1 ≤ k2 ∧ k2 ≤ 100) ∧
    progress.pos 53 100 = some 26 ∧ progress.pos 54 100 = some 27 ∧
    progress.percent 53 100 = some ['5', '2'] ∧ progress.percent 54 100 = some ['5', '4'] :=
  ⟨C17_display_never_moves_back 53 54 100 (by decide) (by decide) (by decide) (by decide),
    by decide, by decide, by decide, by decide⟩

/-! ## Theorems: below the total the display is not complete -/

theorem roundHalfEven_one (P : Nat) : roundHalfEven P 1 = P := by
  simp [roundHalfEven, Nat.mod_one]

/-- Whole numbers up to `2 ^ 24` convert to `float` without rounding. -/
theorem ofNat_exact (k : Nat) (h : k ≤ 2 ^ 24) : (F32.ofNat k).toRat = k := by
  rcases Nat.eq_zero_or_pos k with h0 | h0
  · subst h0
    simp [F32.ofNat, ofRat_zero, F32.toRat]
  obtain ⟨m, e, r, _, _, v⟩ := ofRat_spec k 1 h0 Nat.one_pos
  obtain ⟨lo, _⟩ := scaled_bounds k 1 h0 Nat.one_pos
  simp only [F32.ofNat, r, F32.toRat]
  rw [v]
  rcases le_or_lt (expo k 1) 0 with hs | hs
  · obtain ⟨t, ht⟩ : ∃ t : Nat, expo k 1 = -(t : Int) := ⟨(-(expo k 1)).toNat, by omega⟩
    have e1 : (expo k 1).toNat = 0 := by omega
    have e2 : (-(expo k 1)).toNat = t := by omega
    rw [e1, e2, pow_zero, mul_one, roundHalfEven_one, ht, zpow_neg, zpow_natCast]
    push_cast
    have hpos : (2 : ℚ) ^ t ≠ 0 := by positivity
    field_simp
  · have e2 : (-(expo k 1)).toNat = 0 := by omega
    rw [e2, pow_zero, mul_one, one_mul] at lo
    have ht : 1 ≤ (expo k 1).toNat := by omega
    have hle : (expo k 1).toNat ≤ 1 := by
      by_contra hc
      have h4 : 2 ^ 2 ≤ 2 ^ (expo k 1).toNat := Nat.pow_le_pow_right (by norm_num) (by omega)
      have : 2 ^ 23 * 2 ^ 2 ≤ 2 ^ 23 * 2 ^ (expo k 1).toNat := Nat.mul_le_mul_left _ h4
      norm_num at this h lo
      omega
    have h1 : (expo k 1).toNat = 1 := by omega
    rw [h1] at lo
    have hk : k = 2 ^ 24 := by
      norm_num at lo h ⊢
      omega
    subst hk
    have hd : F32.ofRat (2 ^ 24) 1 = .fin (2 ^ 23) 1 := by decide
    rw [r] at hd
    injection hd with hm he
    rw [← v, hm, he]
    norm_num

theorem below_one_toRat : ((16777215 : Nat) : ℚ) * 2 ^ (-24 : Int) < 1 := by
  rw [zpow_neg]; norm_num

/-- For a sum below a total of at most `2 ^ 24` the fraction `prgs` is at most
`1 - 2 ^ -24`, the largest `float` below one. -/
theorem prgs_below_one (sum_i n : Nat) (hlt : sum_i < n) (hb : n ≤ 2 ^ 24) :
    ∃ m e, progress.prgs sum_i n = .fin m e ∧
      (m : ℚ) * 2 ^ e ≤ ((16777215 : Nat) : ℚ) * 2 ^ (-24 : Int) := by
  have hn : 0 < n := by omega
  obtain ⟨m2, e2, r2, h21, h22, _⟩ := ofRat_spec n 1 hn Nat.one_pos
  obtain ⟨m1, e1, r1, _⟩ := ofRat_canonical sum_i 1 Nat.one_pos
  have x1 := ofNat_exact sum_i (by omega)
  have x2 := ofNat_exact n hb
  simp only [F32.ofNat, r1, r2, F32.toRat] at x1 x2
  have hm2 : m2 ≠ 0 := by
    have : 0 < 2 ^ 23 := by norm_num
    omega
  have hQ : 0 < m2 * 2 ^ (e2 - e1).toNat := Nat.mul_pos (by omega) (by positivity)
  have hnq : (0 : ℚ) < n := by exact_mod_cast hn
  have hq : ((m1 * 2 ^ (e1 - e2).toNat : Nat) : ℚ) / ((m2 * 2 ^ (e2 - e1).toNat : Nat) : ℚ)
      ≤ ((16777215 : Nat) : ℚ) / ((16777216 : Nat) : ℚ) := by
    rw [div_arg, x1, x2, div_le_div_iff₀ hnq (by norm_num)]
    have hnat : sum_i * 16777216 ≤ 16777215 * n := by
      norm_num at hb
      omega
    exact_mod_cast hnat
  have hd := ofRat_mono_rat _ _ 16777215 16777216 hQ (by norm_num) hq
  have htop : F32.ofRat 16777215 16777216 = .fin 16777215 (-24) := by decide
  obtain ⟨m, e, r, _⟩ := ofRat_canonical (m1 * 2 ^ (e1 - e2).toNat) _ hQ
  rw [r, htop] at hd
  simp only [F32.toRat] at hd
  simp only [progress.prgs, F32.ofNat, r1, r2, div_fin _ _ _ _ hm2, r, F32.min, F32.one]
  have hnot : ¬ F32.lt (.fin (2 ^ 23) (-23)) (.fin m e) = true := by
    rw [lt_fin_iff, one_toRat]
    have := below_one_toRat
    linarith
  rw [if_neg hnot]
  exact ⟨m, e, rfl, hd⟩

/-- Below a total of at most `2 ^ 24`, the floor of the rounded product
`c * prgs` stays under `c` when `c * (1 - 2 ^ -24)` rounds to less than `c`. -/
theorem scaled_floor_lt (c mc : Nat) (ec : Int) (hc : F32.ofNat c = .fin mc ec)
    (cval : (mc : ℚ) * 2 ^ ec = c) (hc100 : c ≤ 100)
    (htop : (F32.mul (.fin mc ec) (.fin 16777215 (-24))).toRat < c)
    (sum_i n : Nat) (hlt : sum_i < n) (hb : n ≤ 2 ^ 24) :
    ∃ k, k + 1 ≤ c ∧
      F32.floor (F32.mul (F32.ofNat c) (progress.prgs sum_i n)) = F32.ofNat k := by
  obtain ⟨m, e, r, hv⟩ := prgs_below_one sum_i n hlt hb
  have hv1 : (m : ℚ) * 2 ^ e ≤ 1 := le_trans hv below_one_toRat.le
  obtain ⟨k, _, hf, lo, _⟩ := floor_mul_spec c mc ec hc cval hc100 m e hv1
  have hm := mul_fin_mono mc m 16777215 ec e (-24) hv
  rw [hc] at lo
  refine ⟨k, ?_, by rw [r]; exact hf⟩
  have hlt2 : (k : ℚ) < c := lt_of_le_of_lt (le_trans lo hm) htop
  have : k < c := by exact_mod_cast hlt2
  omega

theorem bar_incomplete (p : Nat) (h : p ≤ 49) :
    (progress.bar p).count '>' = 1 ∧ progress.bar p ≠ List.replicate 50 '=' := by
  revert p
  decide

theorem fifty_top : (F32.mul (.fin 13107200 (-18)) (.fin 16777215 (-24))).toRat
    < ((50 : Nat) : ℚ) := by
  have h : F32.mul (.fin 13107200 (-18)) (.fin 16777215 (-24)) = .fin 13107199 (-18) := by
    decide
  rw [h]
  simp only [F32.toRat]
  rw [zpow_neg]
  norm_num

theorem hundred_top : (F32.mul (.fin 13107200 (-17)) (.fin 16777215 (-24))).toRat
    < ((100 : Nat) : ℚ) := by
  have h : F32.mul (.fin 13107200 (-17)) (.fin 16777215 (-24)) = .fin 13107199 (-17) := by
    decide
  rw [h]
  simp only [F32.toRat]
  rw [zpow_neg]
  norm_num

/-- Claim C18 fails as stated: for total `2 ^ 24 + 1` and sum `2 ^ 24` the sum
is below the total, so `run()` sleeps and loops again, but `float(_n)` rounds
to `2 ^ 24`, the fraction is `1.0f`, and the line shows position 50, a bar of
50 `=` without `>`, and 100 percent. -/
theorem C18_counterexample :
    16777216 < 16777217 ∧
    (progress.mk 100 16777217 [] [16777216] thread.started).iteration.brk = false ∧
    progress.pos 16777216 16777217 = some 50 ∧
    progress.bar 50 = List.replicate 50 '=' ∧
    (progress.bar 50).count '>' = 0 ∧
    progress.percent 16777216 16777217 = some ['1', '0', '0'] := by
  decide

/-- Claim C18, amended: for every total `n` with `0 < n ≤ 2 ^ 24` and every
sum below `n`, the bar position is at most 49, so the bar holds exactly one
`>` and is not all `=`, and the percentage printed is at most 99. -/
theorem C18_incomplete_below_total_up_to_2_pow_24 (sum_i n : Nat)
    (hlt : sum_i < n) (hb : n ≤ 2 ^ 24) :
    ∃ p k, progress.pos sum_i n = some p ∧ p ≤ 49 ∧
      (progress.bar p).count '>' = 1 ∧ progress.bar p ≠ List.replicate 50 '=' ∧
      progress.percent sum_i n = some (Nat.toDigits 10 k) ∧ k ≤ 99 ∧
      (progress.mk 100 n [] [sum_i] thread.started).iteration.brk = false := by
  obtain ⟨p, hp, f1⟩ := scaled_floor_lt 50 _ _ ofNat_fifty fifty_toRat (by norm_num)
    fifty_top sum_i n hlt hb
  obtain ⟨k, hk, g1⟩ := scaled_floor_lt 100 _ _ ofNat_hundred hundred_toRat (by norm_num)
    hundred_top sum_i n hlt hb
  have hb1 := bar_incomplete p (by omega)
  refine ⟨p, k, ?_, by omega, hb1.1, hb1.2, ?_, by omega, ?_⟩
  · simp only [progress.pos, f1]
    exact (small_whole p (by omega)).1
  · simp only [progress.percent, g1]
    exact (small_whole k (by omega)).2
  · have hs : sum_i < ULONG_RANGE := by
      have : (2 : Nat) ^ 24 < ULONG_RANGE := by decide
      omega
    have ha : accumulate [sum_i] = sum_i := by
      rw [accumulate_eq_sum _ (by simpa using hs)]
      simp
    simp only [progress.iteration, ha, hlt, if_true]

/-- Witness of C18: total `2 ^ 24` and sum `2 ^ 24 - 1`, the largest total the
bound admits. -/
theorem C18_witness :
    (∃ p k, progress.pos 16777215 16777216 = some p ∧ p ≤ 49 ∧
      (progress.bar p).count '>' = 1 ∧ progress.bar p ≠ List.replicate 50 '=' ∧
      progress.percent 16777215 16777216 = some (Nat.toDigits 10 k) ∧ k ≤ 99 ∧
      (progress.mk 100 16777216 [] [16777215] thread.started).iteration.brk = false) ∧
    progress.pos 16777215 16777216 = some 49 ∧
    progress.percent 16777215 16777216 = some ['9', '9'] :=
  ⟨C18_incomplete_below_total_up_to_2_pow_24 16777215 16777216 (by decide) (by decide),
    by decide, by decide⟩

/-! ## Theorems: what `atoi` reads -/

theorem atoi_samples :
    atoi "2147483647".toList = 2147483647 ∧ atoi "2147483648".toList = -2147483648 ∧
    atoi "-4294967295".toList = 1 ∧ atoi "4294967296".toList = 0 ∧
    atoi " \t+12abc".toList = 12 ∧ atoi "99999999999999999999".toList = -1 := by
  decide

theorem toInt32_of_range (x : Int) (h1 : -(2 ^ 31) ≤ x) (h2 : x < 2 ^ 31) : toInt32 x = x := by
  unfold toInt32
  omega

theorem clampLong_of_range (x : Int) (h1 : -(2 ^ 63) ≤ x) (h2 : x ≤ 2 ^ 63 - 1) :
    clampLong x = x := by
  unfold clampLong
  omega

theorem digit_not_space (c : Char) (h : c.isDigit = true) : isspace c = false := by
  by_contra hc
  simp only [isspace, Bool.not_eq_false, Bool.or_eq_true, decide_eq_true_eq] at hc
  rcases hc with ((((rfl | rfl) | rfl) | rfl) | rfl) | rfl <;> exact absurd h (by decide)

theorem dropWhile_spaces (ws t : List Char) (hws : ∀ c ∈ ws, isspace c = true)
    (ht : ∀ c, t.head? = some c → isspace c = false) :
    (ws ++ t).dropWhile isspace = t := by
  induction ws with
  | nil =>
    cases t with
    | nil => rfl
    | cons c t => simp [List.dropWhile, ht c rfl]
  | cons c ws ih =>
    have hc : isspace c = true := hws c (by simp)
    simp only [List.cons_append, List.dropWhile, hc]
    exact ih (fun d hd => hws d (by simp [hd]))

theorem takeWhile_digits (ds rest : List Char) (hds : ∀ c ∈ ds, c.isDigit = true)
    (hr : ∀ c, rest.head? = some c → c.isDigit = false) :
    (ds ++ rest).takeWhile Char.isDigit = ds := by
  induction ds with
  | nil =>
    cases rest with
    | nil => rfl
    | cons c t => simp [List.takeWhile, hr c rfl]
  | cons c ds ih =>
    have hc : c.isDigit = true := hds c (by simp)
    simp only [List.cons_append, List.takeWhile, hc]
    exact congrArg (c :: ·) (ih (fun d hd => hds d (by simp [hd])))

theorem head_dropWhile_not (p : Char → Bool) (l : List Char) (c : Char)
    (h : (l.dropWhile p).head? = some c) : p c = false := by
  induction l with
  | nil => simp at h
  | cons x xs ih =>
    by_cases hx : p x = true
    · simp only [List.dropWhile, hx] at h
      exact ih h
    · simp only [Bool.not_eq_true] at hx
      simp only [List.dropWhile, hx, List.head?_cons, Option.some.injEq] at h
      rw [← h]
      exact hx

theorem decimalValue_nil : decimalValue [] = 0 := rfl

/-- A string that parses as the `int` `k` is read by `std::atoi` as `k`. -/
theorem atoi_of_parses (v : List Char) (k : Int) (h : ParsesAsInt v k) : atoi v = k := by
  obtain ⟨ws, sign, ds, rest, rfl, hws, hsign, hne, hds, hrest, rfl⟩ := h
  obtain ⟨d, ds', rfl⟩ := List.exists_cons_of_ne_nil hne
  have hd : d.isDigit = true := hds d (by simp)
  have htake := takeWhile_digits (d :: ds') rest hds hrest
  unfold atoi
  congr 1
  rcases hsign with rfl | rfl | rfl
  · have hdrop : (ws ++ [] ++ (d :: ds') ++ rest).dropWhile isspace = d :: (ds' ++ rest) := by
      have := dropWhile_spaces ws (d :: (ds' ++ rest)) hws (by
        intro c hc
        simp only [List.head?_cons, Option.some.injEq] at hc
        exact hc ▸ digit_not_space d hd)
      simpa using this
    unfold strtol
    rw [hdrop]
    split
    · rename_i r heq
      injection heq with h1 _
      exact absurd hd (by rw [h1]; decide)
    · rename_i r heq
      injection heq with h1 _
      exact absurd hd (by rw [h1]; decide)
    · rename_i r _ _
      have : (d :: (ds' ++ rest)) = (d :: ds') ++ rest := rfl
      rw [this, htake]
      simp
  · have hdrop : (ws ++ ['+'] ++ (d :: ds') ++ rest).dropWhile isspace
        = '+' :: (d :: ds' ++ rest) := by
      have := dropWhile_spaces ws ('+' :: (d :: ds' ++ rest)) hws (by
        intro c hc
        simp only [List.head?_cons, Option.some.injEq] at hc
        rw [← hc]; decide)
      simpa using this
    unfold strtol
    rw [hdrop]
    simp only [htake]
    simp
  · have hdrop : (ws ++ ['-'] ++ (d :: ds') ++ rest).dropWhile isspace
        = '-' :: (d :: ds' ++ rest) := by
      have := dropWhile_spaces ws ('-' :: (d :: ds' ++ rest)) hws (by
        intro c hc
        simp only [List.head?_cons, Option.some.injEq] at hc
        rw [← hc]; decide)
      simpa using this
    unfold strtol
    rw [hdrop]
    simp only [htake]
    simp

/-- When `std::atoi` returns a positive `int`, the string parses as that
`int`. -/
theorem parses_of_atoi_pos (v : List Char) (h : 0 < atoi v) : ParsesAsInt v (atoi v) := by
  have hz : toInt32 (clampLong 0) = 0 := by decide
  have hsplit : v = v.takeWhile isspace ++ v.dropWhile isspace :=
    (List.takeWhile_append_dropWhile isspace v).symm
  have hws : ∀ c ∈ v.takeWhile isspace, isspace c = true :=
    fun c hc => List.mem_takeWhile_imp hc
  have key : ∀ (sign r : List Char) (neg : Bool),
      v.dropWhile isspace = sign ++ r →
      (sign = [] ∨ sign = ['+'] ∨ sign = ['-']) → (neg = true ↔ sign = ['-']) →
      atoi v = toInt32 (clampLong (if neg = true
        then -(decimalValue (r.takeWhile Char.isDigit) : Int)
        else (decimalValue (r.takeWhile Char.isDigit) : Int))) →
      ParsesAsInt v (atoi v) := by
    intro sign r neg hbody hsign hneg hval
    have hne : r.takeWhile Char.isDigit ≠ [] := by
      intro hnil
      rw [hval, hnil, decimalValue_nil] at h
      simp only [Nat.cast_zero, neg_zero, ite_self] at h
      rw [hz] at h
      exact absurd h (lt_irrefl 0)
    refine ⟨v.takeWhile isspace, sign, r.takeWhile Char.isDigit, r.dropWhile Char.isDigit,
      ?_, hws, hsign, hne, fun c hc => List.mem_takeWhile_imp hc,
      fun c hc => head_dropWhile_not Char.isDigit r c hc, ?_⟩
    · rw [List.append_assoc, List.append_assoc, List.takeWhile_append_dropWhile, ← hbody]
      exact hsplit
    · rw [hval]
      by_cases hn : neg = true
      · rw [if_pos hn, if_pos (hneg.1 hn)]
      · rw [if_neg hn, if_neg (fun hs => hn (hneg.2 hs))]
  have hdef : atoi v = toInt32 (strtol v) := rfl
  unfold strtol at hdef
  split at hdef
  · rename_i r heq
    exact key ['-'] r true (by rw [heq]; rfl) (Or.inr (Or.inr rfl)) (by simp) (by
      rw [hdef]; simp)
  · rename_i r heq
    exact key ['+'] r false (by rw [heq]; rfl) (Or.inr (Or.inl rfl)) (by simp) (by
      rw [hdef]; simp)
  · exact key [] (v.dropWhile isspace) false (by simp) (Or.inl rfl) (by simp) (by
      rw [hdef]; simp)

/-- The test `atoi(val) > 0` of `verbose()` holds exactly when the value parses
as a positive `int`. -/
theorem atoi_pos_iff (v : List Char) : 0 < atoi v ↔ ∃ k, 0 < k ∧ ParsesAsInt v k := by
  constructor
  · intro h
    exact ⟨atoi v, h, parses_of_atoi_pos v h⟩
  · rintro ⟨k, hk, hp⟩
    rw [atoi_of_parses v k hp]
    exact hk

theorem getenv_eq (env : Env) (var : List Char) : getenv env var = (env var).getD [] := by
  unfold getenv
  cases env var <;> rfl

theorem verbose_false_iff (env : Env) :
    progress.verbose env = false ↔
      ((env "SMT_QUIET".toList).getD [] = "true".toList ∨
       (env "SMT_QUIET".toList).getD [] = "TRUE".toList ∨
       0 < atoi ((env "SMT_QUIET".toList).getD [])) := by
  have key : ∀ (c : Prop) [Decidable c], ((if c then false else true) = false ↔ c) := by
    intro c _
    by_cases h : c <;> simp [h]
  rw [← getenv_eq]
  exact key _

theorem verbose_true_iff (env : Env) :
    progress.verbose env = true ↔
      ¬ ((env "SMT_QUIET".toList).getD [] = "true".toList ∨
         (env "SMT_QUIET".toList).getD [] = "TRUE".toList ∨
         0 < atoi ((env "SMT_QUIET".toList).getD [])) := by
  rw [← verbose_false_iff]
  cases progress.verbose env <;> simp

/-- A string parses as the `int` `k` exactly when it parses as an integer `z`
that the conversion to `int` takes to `k`. -/
theorem parsesAsInt_iff (v : List Char) (k : Int) :
    ParsesAsInt v k ↔ ∃ z, ParsesAsInteger v z ∧ k = toInt32 (clampLong z) := by
  constructor
  · rintro ⟨ws, sign, ds, rest, hv, hws, hs, hne, hds, hrest, hk⟩
    exact ⟨_, ⟨ws, sign, ds, rest, hv, hws, hs, hne, hds, hrest, rfl⟩, hk⟩
  · rintro ⟨z, ⟨ws, sign, ds, rest, hv, hws, hs, hne, hds, hrest, hz⟩, hk⟩
    exact ⟨ws, sign, ds, rest, hv, hws, hs, hne, hds, hrest, hz ▸ hk⟩

/-- Claim C7 fails as stated: `2147483648` is not `true`, not `TRUE`, and parses
as the positive integer 2147483648, but `std::atoi` returns an `int`, here
`-2147483648`, the test `> 0` fails and `verbose()` returns true, where the
claim has false. -/
theorem C7_counterexample :
    ParsesAsInteger "2147483648".toList 2147483648 ∧
    atoi "2147483648".toList = -2147483648 ∧
    progress.verbose (quietEnv (some "2147483648".toList)) = true ∧
    ¬ (∀ env : Env, progress.verbose env = false ↔
        ((env "SMT_QUIET".toList).getD [] = "true".toList ∨
         (env "SMT_QUIET".toList).getD [] = "TRUE".toList ∨
         ∃ z, 0 < z ∧ ParsesAsInteger ((env "SMT_QUIET".toList).getD []) z)) := by
  have hp : ParsesAsInteger "2147483648".toList 2147483648 :=
    ⟨[], [], "2147483648".toList, [], by decide, by decide, by decide, by decide,
      by decide, by decide, by decide⟩
  refine ⟨hp, by decide, by decide, ?_⟩
  intro hall
  have h := (hall (quietEnv (some "2147483648".toList))).2
    (Or.inr (Or.inr ⟨2147483648, by decide, hp⟩))
  revert h
  decide

/-- Claim C7, amended: `verbose()` returns false exactly when the value of
`SMT_QUIET` (the empty string when the variable is unset) is `true`, is `TRUE`,
or parses as a positive `int`: white space, an optional sign, then decimal digits
whose value, as the `int` that `std::atoi` returns, is positive. For every other
value it returns true, in particular when the variable is unset or empty; a
positive numeral that fits an `int` always selects quiet mode. -/
theorem C7_verbose_false_iff_truthy (env : Env) :
    (progress.verbose env = false ↔
      ((env "SMT_QUIET".toList).getD [] = "true".toList ∨
       (env "SMT_QUIET".toList).getD [] = "TRUE".toList ∨
       ∃ k, 0 < k ∧ ParsesAsInt ((env "SMT_QUIET".toList).getD []) k)) ∧
    (progress.verbose env = true ↔
      ¬ ((env "SMT_QUIET".toList).getD [] = "true".toList ∨
         (env "SMT_QUIET".toList).getD [] = "TRUE".toList ∨
         ∃ k, 0 < k ∧ ParsesAsInt ((env "SMT_QUIET".toList).getD []) k)) ∧
    (env "SMT_QUIET".toList = none → progress.verbose env = true) ∧
    (env "SMT_QUIET".toList = some [] → progress.verbose env = true) ∧
    (∀ ws ds rest, env "SMT_QUIET".toList = some (ws ++ ds ++ rest) →
      (∀ c ∈ ws, isspace c = true) → ds ≠ [] → (∀ c ∈ ds, c.isDigit = true) →
      (∀ c, rest.head? = some c → c.isDigit = false) →
      0 < decimalValue ds → decimalValue ds < 2 ^ 31 →
      progress.verbose env = false) := by
  refine ⟨?_, ?_, ?_, ?_, ?_⟩
  · rw [verbose_false_iff, atoi_pos_iff]
  · rw [verbose_true_iff, atoi_pos_iff]
  · intro h
    rw [verbose_true_iff, h]
    decide
  · intro h
    rw [verbose_true_iff, h]
    decide
  · intro ws ds rest h hws hne hds hrest hpos hlt
    rw [verbose_false_iff, atoi_pos_iff, h]
    refine Or.inr (Or.inr ⟨(decimalValue ds : Int), by exact_mod_cast hpos, ?_⟩)
    refine ⟨ws, [], ds, rest, by simp, hws, Or.inl rfl, hne, hds, hrest, ?_⟩
    have h1 : ((decimalValue ds : Nat) : Int) < 2 ^ 31 := by exact_mod_cast hlt
    have h0 : (0 : Int) ≤ ((decimalValue ds : Nat) : Int) := Int.natCast_nonneg _
    rw [if_neg (by simp), clampLong_of_range _ (by omega) (by omega),
      toInt32_of_range _ (by omega) h1]

/-- Claim C8, amended: when the value of `SMT_QUIET` is not `true`, not `TRUE`,
and does not parse as a positive `int` (white space, an optional sign, then
the leading decimal digits, whatever follows being ignored, the value taken as
the `int` that `std::atoi` returns), `verbose()` returns true. -/
theorem C8_verbose_unless_atoi_positive (env : Env)
    (h1 : (env "SMT_QUIET".toList).getD [] ≠ "true".toList)
    (h2 : (env "SMT_QUIET".toList).getD [] ≠ "TRUE".toList)
    (h3 : ∀ k, ParsesAsInt ((env "SMT_QUIET".toList).getD []) k → k ≤ 0) :
    progress.verbose env = true := by
  rw [verbose_true_iff, atoi_pos_iff]
  rintro (h | h | ⟨k, hk, hp⟩)
  · exact h1 h
  · exact h2 h
  · have := h3 k hp
    omega

/-- Witness of C8: the value `yes`, and with it the other values the claim
lists that do not parse as a positive `int`; `-4294967295` does, as the `int`
1, and selects quiet mode. -/
theorem C8_witness :
    progress.verbose (quietEnv (some "yes".toList)) = true ∧
    progress.verbose (quietEnv none) = true ∧
    progress.verbose (quietEnv (some "".toList)) = true ∧
    progress.verbose (quietEnv (some "True".toList)) = true ∧
    progress.verbose (quietEnv (some "0".toList)) = true ∧
    progress.verbose (quietEnv (some "-1".toList)) = true ∧
    progress.verbose (quietEnv (some "2147483648".toList)) = true ∧
    progress.verbose (quietEnv (some "-4294967295".toList)) = false :=
  ⟨C8_verbose_unless_atoi_positive (quietEnv (some "yes".toList)) (by decide) (by decide)
    (fun k hp => le_of_eq ((atoi_of_parses _ k hp).symm.trans (by decide))),
    by decide, by decide, by decide, by decide, by decide, by decide, by decide⟩

/-! ## Theorems: where the bar position is the exact one -/

theorem min_one_toRat (m : Nat) (e : Int) :
    (F32.min (.fin m e) F32.one).toRat ≤ (F32.fin m e).toRat ∧
    ((F32.min (.fin m e) F32.one) = F32.one ∨ (F32.min (.fin m e) F32.one) = .fin m e) := by
  simp only [F32.min, F32.one]
  by_cases hlt : F32.lt (.fin (2 ^ 23) (-23)) (.fin m e) = true
  · rw [if_pos hlt]
    rw [lt_fin_iff] at hlt
    exact ⟨hlt.le, Or.inl rfl⟩
  · rw [if_neg hlt]
    exact ⟨le_refl _, Or.inr rfl⟩

/-- The quotient `float(sum_i)/_n` before the clamp, for operands that `float`
holds exactly: it is the rounded value of the rational `sum_i / n`. -/
theorem quotient_exact (sum_i n : Nat) (hn : 0 < n) (hn24 : n ≤ 2 ^ 24)
    (hs24 : sum_i ≤ 2 ^ 24) :
    ∃ (P Q m : Nat) (e : Int), 0 < Q ∧ (P : ℚ) / (Q : ℚ) = (sum_i : ℚ) / n ∧
      F32.ofRat P Q = .fin m e ∧
      progress.prgs sum_i n = F32.min (.fin m e) F32.one := by
  obtain ⟨m2, e2, r2, h21, h22, _⟩ := ofRat_spec n 1 hn Nat.one_pos
  obtain ⟨m1, e1, r1, _⟩ := ofRat_canonical sum_i 1 Nat.one_pos
  have x1 := ofNat_exact sum_i hs24
  have x2 := ofNat_exact n hn24
  simp only [F32.ofNat, r1, r2, F32.toRat] at x1 x2
  have hm2 : m2 ≠ 0 := by
    have : 0 < 2 ^ 23 := by norm_num
    omega
  have hQ : 0 < m2 * 2 ^ (e2 - e1).toNat := Nat.mul_pos (by omega) (by positivity)
  obtain ⟨m, e, r, _⟩ := ofRat_canonical (m1 * 2 ^ (e1 - e2).toNat) _ hQ
  refine ⟨_, _, m, e, hQ, ?_, r, ?_⟩
  · rw [div_arg, x1, x2]
  · simp only [progress.prgs, F32.ofNat, r1, r2, div_fin _ _ _ _ hm2, r]

theorem prgs_le_of (sum_i n c d : Nat) (hn : 0 < n) (hn24 : n ≤ 2 ^ 24)
    (hs24 : sum_i ≤ 2 ^ 24) (hd : 0 < d) (h : sum_i * d ≤ c * n) :
    (progress.prgs sum_i n).toRat ≤ (F32.ofRat c d).toRat := by
  obtain ⟨P, Q, m, e, hQ, hPQ, r, hp⟩ := quotient_exact sum_i n hn hn24 hs24
  have hnq : (0 : ℚ) < n := by exact_mod_cast hn
  have hdq : (0 : ℚ) < d := by exact_mod_cast hd
  have hmono := ofRat_mono_rat P Q c d hQ hd (by
    rw [hPQ, div_le_div_iff₀ hnq hdq]
    exact_mod_cast h)
  rw [r] at hmono
  rw [hp]
  exact le_trans (min_one_toRat m e).1 hmono

theorem prgs_ge_of (sum_i n a b : Nat) (hn : 0 < n) (hn24 : n ≤ 2 ^ 24)
    (hs24 : sum_i ≤ 2 ^ 24) (hb : 0 < b) (hab : a ≤ b) (h : a * n ≤ sum_i * b) :
    (F32.ofRat a b).toRat ≤ (progress.prgs sum_i n).toRat := by
  obtain ⟨P, Q, m, e, hQ, hPQ, r, hp⟩ := quotient_exact sum_i n hn hn24 hs24
  have hnq : (0 : ℚ) < n := by exact_mod_cast hn
  have hbq : (0 : ℚ) < b := by exact_mod_cast hb
  have hmono := ofRat_mono_rat a b P Q hb hQ (by
    rw [hPQ, div_le_div_iff₀ hbq hnq]
    exact_mod_cast h)
  rw [r] at hmono
  rw [hp]
  rcases (min_one_toRat m e).2 with h1 | h1
  · rw [h1]
    have h11 : F32.ofRat 1 1 = F32.one := by decide
    have := ofRat_mono a b 1 1 hb Nat.one_pos (by omega)
    rw [h11] at this
    exact this
  · rw [h1]
    exact hmono

/-- When the floor of `c * fl(a / b)` evaluates to `k`, the rounded product
lies in `[k, k + 1)`. -/
theorem check_bounds (c mc : Nat) (ec : Int) (hc : F32.ofNat c = .fin mc ec)
    (cval : (mc : ℚ) * 2 ^ ec = c) (hc100 : c ≤ 100) (a b k : Nat) (hb : 0 < b)
    (hab : a ≤ b)
    (hk : F32.toUInt (F32.floor (F32.mul (F32.ofNat c) (F32.ofRat a b))) = some k) :
    (k : ℚ) ≤ (F32.mul (F32.ofNat c) (F32.ofRat a b)).toRat ∧
    (F32.mul (F32.ofNat c) (F32.ofRat a b)).toRat < (k : ℚ) + 1 := by
  obtain ⟨m, e, r, _⟩ := ofRat_canonical a b hb
  have h11 : F32.ofRat 1 1 = F32.one := by decide
  have hv := ofRat_mono a b 1 1 hb Nat.one_pos (by omega)
  rw [r, h11] at hv
  simp only [F32.toRat, F32.one] at hv
  rw [one_toRat] at hv
  obtain ⟨k0, hk0, hf, lo, hi⟩ := floor_mul_spec c mc ec hc cval hc100 m e hv
  rw [r, hf, (small_whole k0 (by omega)).1] at hk
  simp only [Option.some.injEq] at hk
  subst hk
  rw [r]
  exact ⟨lo, hi⟩

/-- The floor of the rounded product `c * prgs` lies between the floors found
for a lower and an upper bound of the rational `sum_i / n`. -/
theorem scaled_floor_between (c mc : Nat) (ec : Int) (hc : F32.ofNat c = .fin mc ec)
    (cval : (mc : ℚ) * 2 ^ ec = c) (hc100 : c ≤ 100)
    (sum_i n : Nat) (hn : 0 < n) (hn24 : n ≤ 2 ^ 24) (hs24 : sum_i ≤ 2 ^ 24)
    (a b k : Nat) (hb : 0 < b) (hab : a ≤ b) (hlo : a * n ≤ sum_i * b)
    (hk : F32.toUInt (F32.floor (F32.mul (F32.ofNat c) (F32.ofRat a b))) = some k)
    (a' b' k' : Nat) (hb' : 0 < b') (hab' : a' ≤ b') (hhi : sum_i * b' ≤ a' * n)
    (hk' : F32.toUInt (F32.floor (F32.mul (F32.ofNat c) (F32.ofRat a' b'))) = some k') :
    ∃ j, k ≤ j ∧ j ≤ k' ∧ j ≤ c ∧
      F32.floor (F32.mul (F32.ofNat c) (progress.prgs sum_i n)) = F32.ofNat j := by
  obtain ⟨m, e, r, _, hv⟩ := prgs_canonical sum_i n hn
  obtain ⟨j, hj, hf, lo, hi⟩ := floor_mul_spec c mc ec hc cval hc100 m e hv
  obtain ⟨ma, ea, ra, _⟩ := ofRat_canonical a b hb
  obtain ⟨mb, eb, rb, _⟩ := ofRat_canonical a' b' hb'
  have c1 := check_bounds c mc ec hc cval hc100 a b k hb hab hk
  have c2 := check_bounds c mc ec hc cval hc100 a' b' k' hb' hab' hk'
  have g1 := prgs_ge_of sum_i n a b hn hn24 hs24 hb hab hlo
  have g2 := prgs_le_of sum_i n a' b' hn hn24 hs24 hb' hhi
  rw [r, ra] at g1
  rw [r, rb] at g2
  simp only [F32.toRat] at g1 g2
  have m1 := mul_fin_mono mc ma m ec ea e g1
  have m2 := mul_fin_mono mc m mb ec e eb g2
  rw [hc, ra] at c1
  rw [hc, rb] at c2
  rw [hc] at lo hi
  refine ⟨j, ?_, ?_, hj, by rw [r]; exact hf⟩
  · have hlt : (k : ℚ) < (j : ℚ) + 1 := lt_of_le_of_lt (le_trans c1.1 m1) hi
    have : k < j + 1 := by exact_mod_cast hlt
    omega
  · have hlt : (j : ℚ) < (k' : ℚ) + 1 := lt_of_le_of_lt (le_trans lo m2) c2.2
    have : j < k' + 1 := by exact_mod_cast hlt
    omega

theorem lower_check (k : Nat) (h : k ≤ 50) :
    F32.toUInt (F32.floor (F32.mul (F32.ofNat 50) (F32.ofRat k 50))) = some k := by
  revert k
  decide

theorem upper_check (k : Nat) (h : k ≤ 49) (h32 : k ≠ 32) :
    F32.toUInt (F32.floor (F32.mul (F32.ofNat 50)
      (F32.ofRat ((k + 1) * 316596 - 1) (50 * 316596)))) = some k := by
  revert k
  decide

theorem upper_check_32 :
    F32.toUInt (F32.floor (F32.mul (F32.ofNat 50)
      (F32.ofRat (33 * 316551 - 1) (50 * 316551)))) = some 32 ∧
    F32.toUInt (F32.floor (F32.mul (F32.ofNat 50)
      (F32.ofRat (33 * 316596 - 2) (50 * 316596)))) = some 32 := by
  decide

/-- For every total below 316597 the bar position `run()` computes in `float`
is `floor(50 * min(sum / total, 1))` of exact arithmetic. -/
theorem pos_eq_exact (sum_i n : Nat) (hn : 0 < n) (hb : n < 316597) :
    progress.pos sum_i n = some (exactPos sum_i n) := by
  rcases Nat.lt_or_ge sum_i n with hlt | hge
  · have hex : exactPos sum_i n = 50 * sum_i / n := by
      simp only [exactPos, Nat.min_eq_left hlt.le]
    have h1 : 50 * sum_i / n * n ≤ 50 * sum_i := Nat.div_mul_le_self _ _
    have h2 : 50 * sum_i < n * (50 * sum_i / n + 1) := Nat.lt_mul_div_succ _ hn
    have hk49 : 50 * sum_i / n ≤ 49 := by
      have : 50 * sum_i / n < 50 := by
        rw [Nat.div_lt_iff_lt_mul hn]
        omega
      omega
    rw [hex]
    generalize 50 * sum_i / n = k at h1 h2 hk49
    have h24 : (316597 : Nat) ≤ 2 ^ 24 := by norm_num
    have key : ∀ a' b', 0 < b' → a' ≤ b' → sum_i * b' ≤ a' * n →
        F32.toUInt (F32.floor (F32.mul (F32.ofNat 50) (F32.ofRat a' b'))) = some k →
        progress.pos sum_i n = some k := by
      intro a' b' hb' hab' hhi hk'
      obtain ⟨j, j1, j2, _, hf⟩ := scaled_floor_between 50 _ _ ofNat_fifty fifty_toRat
        (by norm_num) sum_i n hn (by omega) (by omega) k 50 k (by norm_num) (by omega)
        (by omega) (lower_check k (by omega)) a' b' k hb' hab' hhi hk'
      have hjk : j = k := by omega
      subst hjk
      simp only [progress.pos, hf]
      exact (small_whole j (by omega)).1
    set t := n * (k + 1) with ht
    by_cases h32 : k = 32
    · subst h32
      by_cases hsmall : n ≤ 316551
      · exact key (33 * 316551 - 1) (50 * 316551) (by norm_num) (by norm_num) (by omega)
          upper_check_32.1
      · have hne : 33 * n ≠ 50 * sum_i + 1 := by omega
        have hgap : 50 * sum_i + 2 ≤ 33 * n := by omega
        exact key (33 * 316596 - 2) (50 * 316596) (by norm_num) (by norm_num) (by omega)
          upper_check_32.2
    · have hmul : ((k + 1) * 316596 - 1) * n = 316596 * t - n := by
        rw [Nat.sub_mul, one_mul, ht]
        congr 1
        ring
      have hle : (k + 1) * 316596 - 1 ≤ 50 * 316596 := by omega
      refine key ((k + 1) * 316596 - 1) (50 * 316596) (by norm_num) hle ?_
        (upper_check k hk49 h32)
      rw [hmul]
      omega
  · have hex : exactPos sum_i n = 50 := by
      simp only [exactPos, Nat.min_eq_right hge]
      exact Nat.mul_div_cancel 50 hn
    rw [hex]
    simp only [progress.pos, prgs_complete sum_i n hn hge]
    decide

/-- For every total up to `2 ^ 24` the bar position `run()` computes in `float`
is the exact one or the exact one plus one. -/
theorem pos_within_one (sum_i n : Nat) (hn : 0 < n) (hb : n ≤ 2 ^ 24) :
    ∃ p, progress.pos sum_i n = some p ∧ exactPos sum_i n ≤ p ∧ p ≤ exactPos sum_i n + 1 := by
  rcases Nat.lt_or_ge sum_i n with hlt | hge
  · have hex : exactPos sum_i n = 50 * sum_i / n := by
      simp only [exactPos, Nat.min_eq_left hlt.le]
    have h1 : 50 * sum_i / n * n ≤ 50 * sum_i := Nat.div_mul_le_self _ _
    have h2 : 50 * sum_i < n * (50 * sum_i / n + 1) := Nat.lt_mul_div_succ _ hn
    have hk49 : 50 * sum_i / n ≤ 49 := by
      have : 50 * sum_i / n < 50 := by
        rw [Nat.div_lt_iff_lt_mul hn]
        omega
      omega
    rw [hex]
    generalize 50 * sum_i / n = k at h1 h2 hk49
    have h3 : sum_i * 50 ≤ (k + 1) * n := by
      rw [mul_comm (k + 1) n]
      omega
    obtain ⟨j, j1, j2, _, hf⟩ := scaled_floor_between 50 _ _ ofNat_fifty fifty_toRat
      (by norm_num) sum_i n hn hb (by omega) k 50 k (by norm_num) (by omega)
      (by omega) (lower_check k (by omega)) (k + 1) 50 (k + 1) (by norm_num) (by omega) h3
      (lower_check (k + 1) (by omega))
    refine ⟨j, ?_, j1, j2⟩
    simp only [progress.pos, hf]
    exact (small_whole j (by omega)).1
  · have hex : exactPos sum_i n = 50 := by
      simp only [exactPos, Nat.min_eq_right hge]
      exact Nat.mul_div_cancel 50 hn
    rw [hex]
    refine ⟨50, ?_, le_refl _, by omega⟩
    simp only [progress.pos, prgs_complete sum_i n hn hge]
    decide

/-- Claim C4 fails as stated: for total 316597 and sum 208954 the exact
position is 32, but the `float` quotient and product round up and `run()`
draws the bar at position 33: index 32 holds `=`, not `>`. -/
theorem C4_counterexample :
    exactPos 208954 316597 = 32 ∧
    progress.pos 208954 316597 = some 33 ∧
    progress.render 208954 316597 "Progress".toList =
      some (progress.label "Progress".toList ++ progress.bar 33 ++ [']', ' ']
        ++ [' ', '6', '6'] ++ ['%', '\r']) ∧
    (progress.bar 33)[32]? = some '=' ∧
    ¬ (∀ sum_i n, 0 < n → sum_i < ULONG_RANGE → n < ULONG_RANGE →
        progress.pos sum_i n = some (exactPos sum_i n)) := by
  refine ⟨by decide, by decide, by decide, by decide, ?_⟩
  intro hall
  have h := hall 208954 316597 (by decide) (by decide) (by decide)
  revert h
  decide

/-- Claim C4, amended: for every total `n` with `0 < n < 316597` and every sum,
with `pos = floor(50 * min(sum / n, 1))` computed in exact arithmetic, `run()`
computes that `pos`, and the text between `[` and `]` has exactly 50
characters, `=` at the indices below `pos`, `>` at index `pos` and a space
elsewhere. -/
theorem C4_bar_drawn_at_exact_position (sum_i n : Nat) (name : List Char)
    (hn : 0 < n) (hb : n < 316597) (_hs : sum_i < ULONG_RANGE) :
    progress.pos sum_i n = some (exactPos sum_i n) ∧
    exactPos sum_i n = ⌊(50 : ℚ) * min ((sum_i : ℚ) / n) 1⌋₊ ∧
    (∃ pct, progress.render sum_i n name =
      some (progress.label name ++ progress.bar (exactPos sum_i n) ++ [']', ' ']
        ++ setw 3 pct ++ ['%', '\r'])) ∧
    (progress.bar (exactPos sum_i n)).length = 50 ∧
    ∀ ii, ii < 50 →
      (progress.bar (exactPos sum_i n))[ii]? =
        some (if ii < exactPos sum_i n then '='
          else if ii = exactPos sum_i n then '>' else ' ') := by
  have hp := pos_eq_exact sum_i n hn hb
  obtain ⟨j, _, _, hq⟩ := percent_defined sum_i n hn
  exact ⟨hp, exactPos_eq_floor sum_i n hn, ⟨_, render_eq sum_i n name _ _ hp hq⟩,
    bar_length _, fun ii h => bar_get _ ii h⟩

/-- Witness of C4: total 4 and sum 1 give position 12, that is 12 `=`, one `>`
at index 12 and 37 spaces. -/
theorem C4_witness :
    progress.pos 1 4 = some (exactPos 1 4) ∧
    exactPos 1 4 = 12 ∧
    progress.bar 12 = List.replicate 12 '=' ++ ['>'] ++ List.replicate 37 ' ' :=
  ⟨(C4_bar_drawn_at_exact_position 1 4 "Progress".toList (by decide) (by decide)
    (by decide)).1, by decide, by decide⟩

end smt
